import Mathlib

/-!
Verification of the Momento photo application's encrypted store, backup
codec and auto-backup scheduler, as a shallow embedding of the TypeScript
source (src/lib/crypto.ts, src/lib/db.ts, src/lib/sync.ts,
src/lib/sanitize.ts, src/lib/autobackup.ts).

Binary data (JS Blob / ArrayBuffer contents) is modelled as `List Nat`
(byte lists).  The Web Crypto AES-GCM primitive (`crypto.subtle`) is an
external collaborator: it is modelled as an abstract authenticated cipher
`AEAD` (a pair of encrypt / decrypt functions over an opaque key type);
claims that depend on the cipher being a correct AEAD take that
correctness as an explicit hypothesis.  A thrown JS exception / rejected
promise is modelled as `none` (or `Except.error`).
-/

namespace Momento

/-- Byte strings (JS ArrayBuffer / Blob contents). -/
abbrev Bytes := List Nat

/-- Opaque handle for a CryptoKey (the derived AES-GCM key). -/
abbrev CKey := Nat

/-- Abstract model of the Web Crypto AES-GCM primitive: `enc k iv data`
is the ciphertext (with auth tag) and `dec k iv data` is authenticated
decryption, `none` modelling the exception thrown on tag mismatch. -/
structure AEAD where
  enc : CKey → Bytes → Bytes → Bytes
  dec : CKey → Bytes → Bytes → Option Bytes

/-- crypto.ts: `IV_LENGTH = 12`. -/
def IV_LENGTH : Nat := 12

/-- crypto.ts: `VERIFICATION_TEXT = 'momento-verified'` as its UTF-8 bytes
(the marker is pure ASCII, so bytes are the character codes). -/
def VERIFICATION_BYTES : Bytes := "momento-verified".toList.map Char.toNat

/-- crypto.ts `encryptBlob`, success path with the random 12-byte nonce
made explicit: encrypt `data` under `k` with nonce `iv` and prepend the
nonce to the ciphertext. -/
def encryptBlobP (A : AEAD) (k : CKey) (iv data : Bytes) : Bytes :=
  iv ++ A.enc k iv data

/-- crypto.ts `encryptBlob`: throws (`none`) when `currentKey` is null,
otherwise nonce-prefixed ciphertext. -/
def encryptBlob (A : AEAD) (ck : Option CKey) (iv data : Bytes) : Option Bytes :=
  match ck with
  | none => none
  | some k => some (encryptBlobP A k iv data)

/-- crypto.ts `decryptToBlob`: throws (`none`) when `currentKey` is null,
otherwise splits the stored bytes into the 12-byte nonce prefix and the
ciphertext and decrypts (authentication failure is `none`). -/
def decryptToBlob (A : AEAD) (ck : Option CKey) (data : Bytes) : Option Bytes :=
  match ck with
  | none => none
  | some k => A.dec k (data.take IV_LENGTH) (data.drop IV_LENGTH)

/-- crypto.ts `verifyPassword`: attempt authenticated decryption of the
stored verification pair; any decryption failure is caught and becomes
`false`, success compares the recovered plaintext with the marker.
(The source compares `TextDecoder().decode(decrypted)` with the marker
string; UTF-8 decoding is injective at the marker's all-ASCII encoding,
so the comparison is modelled on the byte lists.) -/
def verifyPassword (A : AEAD) (k : CKey) (iv data : Bytes) : Bool :=
  match A.dec k iv data with
  | some pt => pt == VERIFICATION_BYTES
  | none => false

/-- Concrete cipher used for witnesses and counterexamples: the identity
"cipher" (a legitimate instance of the abstract AEAD interface). -/
def cexAEAD : AEAD where
  enc := fun _ _ d => d
  dec := fun _ _ d => some d

/-- Concrete nonce supply for witnesses: every nonce is 12 zero bytes. -/
def cexIvs : Nat → Bytes := fun _ => List.replicate IV_LENGTH 0

/-- db.ts photo record as stored in the `photos` object store.  `blob` and
`thumbnail` hold plaintext image bytes when `encrypted = false` and
nonce-prefixed ciphertext when `encrypted = true` (records written before
encryption support lack the JS `encrypted` property, which is falsy, so a
Bool models it).  `albumIds` is `none` for records created before album
support existed (JS `undefined`). -/
structure PhotoRecord where
  id : String
  blob : Bytes
  thumbnail : Bytes
  name : String
  albumIds : Option (List String)
  createdAt : Int
  encrypted : Bool
deriving DecidableEq, Repr

/-- db.ts pattern `if (!record.albumIds) record.albumIds = []`. -/
def defaultAlbums (r : PhotoRecord) : PhotoRecord :=
  { r with albumIds := some (r.albumIds.getD []) }

/-- db.ts `decryptPhotoRecord`: when the record is tagged encrypted and a
key is active, decrypt both payloads (a decryption exception propagates:
`none`) and strip the encrypted tag; otherwise the record is returned
as-is (in particular an encrypted record with no active key is returned
with its ciphertext payloads, no error). -/
def decryptPhotoRecord (A : AEAD) (ck : Option CKey) (r : PhotoRecord) :
    Option PhotoRecord :=
  match ck, r.encrypted with
  | some k, true =>
    match decryptToBlob A (some k) r.blob with
    | none => none
    | some b =>
      match decryptToBlob A (some k) r.thumbnail with
      | none => none
      | some t => some { r with blob := b, thumbnail := t, encrypted := false }
  | _, _ => some r

/-- IndexedDB `db.put('photos', r)` with `keyPath: 'id'`: replace the
record with the same id, or append the record when its id is new. -/
def putPhoto (r : PhotoRecord) (db : List PhotoRecord) : List PhotoRecord :=
  if db.any (fun x => x.id == r.id) then
    db.map (fun x => if x.id == r.id then r else x)
  else db ++ [r]

/-- db.ts `encryptPhoto`, with the two fresh random nonces made explicit
(drawn from the supply `ivs` at positions `n` and `n + 1`): encrypt both
payloads independently and set the encrypted tag. -/
def encryptPhoto (A : AEAD) (k : CKey) (ivs : Nat → Bytes) (n : Nat)
    (p : PhotoRecord) : PhotoRecord :=
  { p with blob := encryptBlobP A k (ivs n) p.blob,
           thumbnail := encryptBlobP A k (ivs (n + 1)) p.thumbnail,
           encrypted := true }

/-- db.ts `addPhoto`: default `albumIds`, then encrypt the payloads when a
key is active (consuming two nonces) and `put` the record.  Returns the
updated store and the nonce-supply position. -/
def addPhoto (A : AEAD) (ivs : Nat → Bytes) (ck : Option CKey) (n : Nat)
    (photo : PhotoRecord) (db : List PhotoRecord) : List PhotoRecord × Nat :=
  let photo := defaultAlbums photo
  match ck with
  | some k => (putPhoto (encryptPhoto A k ivs n photo) db, n + 2)
  | none => (putPhoto photo db, n)

/-- db.ts `getPhoto`: fetch by id (`some none` models JS `undefined`),
default `albumIds`, then decrypt; the outer `none` models a propagated
decryption exception. -/
def getPhoto (A : AEAD) (ck : Option CKey) (db : List PhotoRecord)
    (i : String) : Option (Option PhotoRecord) :=
  match db.find? (fun r => r.id == i) with
  | none => some none
  | some r => (decryptPhotoRecord A ck (defaultAlbums r)).map some

/-- db.ts `getAllPhotos` loop body: default `albumIds` and decrypt each
record in order, failing as soon as one record fails to decrypt. -/
def decryptPhotoList (A : AEAD) (ck : Option CKey) :
    List PhotoRecord → Option (List PhotoRecord)
  | [] => some []
  | r :: rest =>
    match decryptPhotoRecord A ck (defaultAlbums r) with
    | none => none
    | some p =>
      match decryptPhotoList A ck rest with
      | none => none
      | some ps => some (p :: ps)

/-- Insertion step for the descending `createdAt` sort. -/
def insertPhotoDesc (r : PhotoRecord) : List PhotoRecord → List PhotoRecord
  | [] => [r]
  | x :: xs =>
    if x.createdAt < r.createdAt then r :: x :: xs else x :: insertPhotoDesc r xs

/-- db.ts `.sort((a, b) => b.createdAt - a.createdAt)`: stable sort on
descending creation time, modelled as insertion sort. -/
def sortPhotosDesc : List PhotoRecord → List PhotoRecord
  | [] => []
  | r :: rest => insertPhotoDesc r (sortPhotosDesc rest)

/-- db.ts `getAllPhotos`: decrypt every record (per
`decryptPhotoRecord`, records tagged encrypted with no active key pass
through unchanged), then sort by `createdAt` descending. -/
def getAllPhotos (A : AEAD) (ck : Option CKey) (db : List PhotoRecord) :
    Option (List PhotoRecord) :=
  (decryptPhotoList A ck db).map sortPhotosDesc

/-- db.ts `encryptAllPhotos` loop: for each still-plaintext record from
the snapshot, default `albumIds`, encrypt it (two fresh nonces) and `put`
it back before processing the next record. -/
def encryptAllLoop (A : AEAD) (k : CKey) (ivs : Nat → Bytes) :
    List PhotoRecord → Nat → List PhotoRecord → List PhotoRecord × Nat
  | [], n, db => (db, n)
  | r :: rest, n, db =>
    encryptAllLoop A k ivs rest (n + 2)
      (putPhoto (encryptPhoto A k ivs n (defaultAlbums r)) db)

/-- db.ts `encryptAllPhotos`: filter the snapshot for records not yet
encrypted and encrypt each one, persisting record-by-record; returns the
final store and the processed count.  Without an active key the first
`encryptBlob` call throws (`none`), except when there is nothing to
encrypt. -/
def encryptAllPhotos (A : AEAD) (ivs : Nat → Bytes) (ck : Option CKey)
    (db : List PhotoRecord) : Option (List PhotoRecord × Nat) :=
  let plains := db.filter (fun r => !r.encrypted)
  match ck with
  | some k => some ((encryptAllLoop A k ivs plains 0 db).1, plains.length)
  | none => if plains.isEmpty then some (db, 0) else none

/-- db.ts `decryptAllPhotos` loop: decrypt each record of the snapshot of
encrypted-tagged records (per `decryptPhotoRecord`) and `put` the result
back, one record at a time. -/
def decryptAllLoop (A : AEAD) (ck : Option CKey) :
    List PhotoRecord → List PhotoRecord → Option (List PhotoRecord)
  | [], db => some db
  | r :: rest, db =>
    match decryptPhotoRecord A ck r with
    | none => none
    | some p => decryptAllLoop A ck rest (putPhoto p db)

/-- db.ts `decryptAllPhotos`: process every record tagged encrypted,
reporting per-record progress; returns the final store and the processed
count. -/
def decryptAllPhotos (A : AEAD) (ck : Option CKey) (db : List PhotoRecord) :
    Option (List PhotoRecord × Nat) :=
  let encs := db.filter (fun r => r.encrypted)
  (decryptAllLoop A ck encs db).map (fun db' => (db', encs.length))

/-- Concrete encrypted-tagged record used in counterexamples: its payload
bytes are ciphertext left in the store. -/
def cexEncPhoto : PhotoRecord :=
  { id := "p1", blob := [9, 9, 9], thumbnail := [8, 8], name := "pic",
    albumIds := some [], createdAt := 0, encrypted := true }

/-- sanitize.ts `stripHtmlTags` scanner state machine over the input
characters, equivalent to the global regex replace of tag spans: outside
a candidate tag (`none` state) a `<` opens one; inside (`some pending`,
the candidate's characters in reverse) a `>` discards the whole span,
while end of input emits the unmatched candidate verbatim (the regex
finds no match there). -/
def stripTagsGo : List Char → Option (List Char) → List Char
  | [], none => []
  | [], some pending => pending.reverse
  | c :: rest, none =>
    if c = '<' then stripTagsGo rest (some [c]) else c :: stripTagsGo rest none
  | c :: rest, some pending =>
    if c = '>' then stripTagsGo rest none else stripTagsGo rest (some (c :: pending))

/-- sanitize.ts `stripHtmlTags`: remove every HTML tag span. -/
def stripHtmlTags (s : String) : String :=
  (stripTagsGo s.toList none).asString

/-- sanitize.ts `sanitizeFileName`, filesystem-unsafe character class. -/
def fileBadChar (c : Char) : Bool :=
  c = '<' || c = '>' || c = ':' || c = '"' || c = '/' || c = '\\' ||
  c = '|' || c = '?' || c = '*'

/-- sanitize.ts `sanitizeFileName`, control-character class
(U+0000 to U+001F and U+007F). -/
def ctrlChar (c : Char) : Bool :=
  c.toNat ≤ 31 || c.toNat = 127

/-- sanitize.ts `.replace(/\.\./g, '')`: one left-to-right pass removing
non-overlapping `..` pairs. -/
def removeDotDot : List Char → List Char
  | '.' :: '.' :: rest => removeDotDot rest
  | c :: rest => c :: removeDotDot rest
  | [] => []

/-- JS `String.prototype.trim`: drop whitespace from both ends. -/
def trimWs (l : List Char) : List Char :=
  ((l.dropWhile Char.isWhitespace).reverse.dropWhile Char.isWhitespace).reverse

/-- sanitize.ts `sanitizeFileName`: strip HTML tags, remove
filesystem-unsafe characters, remove `..` sequences, remove control
characters, trim surrounding whitespace.  Note that no length cap is
applied. -/
def sanitizeFileName (name : String) : String :=
  (trimWs (((stripHtmlTags name).toList.filter (fun c => !fileBadChar c)
      |> removeDotDot).filter (fun c => !ctrlChar c))).asString

/-- types/photo.ts `Album` record (albums are never encrypted). -/
structure AlbumRec where
  id : String
  name : String
  icon : String
  createdAt : Int
deriving DecidableEq, Repr

/-- sync.ts photo metadata as serialized in `metadata.json`
(`Omit<Photo, 'blob' | 'thumbnail'>`): the photo record without its two
binary payloads.  The untyped `encrypted` property travels with the
metadata when present. -/
structure PhotoMeta where
  id : String
  name : String
  albumIds : Option (List String)
  createdAt : Int
  encrypted : Bool
deriving DecidableEq, Repr

/-- sync.ts `ExportMetadata` as found after `JSON.parse`, with no shape
validation (the source casts).  `albums = none` models a missing or null
`albums` field (the source applies `?? []`); `photos = none` models a
missing or null `photos` field, on which `metadata.photos.length` throws
a TypeError. -/
structure Manifest where
  albums : Option (List AlbumRec)
  photos : Option (List PhotoMeta)
deriving DecidableEq, Repr

/-- State of the archive's `metadata.json` entry: absent from the zip,
present but not valid JSON (`JSON.parse` throws), or parsed. -/
inductive MetaFile
  | absent
  | unparseable
  | parsed (m : Manifest)
deriving DecidableEq, Repr

/-- A backup zip archive: the manifest entry plus binary entries
`photos/<id>.webp` and `thumbs/<id>.webp`, keyed here by photo id. -/
structure Archive where
  metaFile : MetaFile
  photoFiles : List (String × Bytes)
  thumbFiles : List (String × Bytes)
deriving DecidableEq, Repr

/-- `zip.file(name)` lookup for a photo's binary entry, by photo id. -/
def findFile (files : List (String × Bytes)) (pid : String) : Option Bytes :=
  (files.find? (fun f => f.1 == pid)).map (fun f => f.2)

/-- The IndexedDB dataset: the `photos` and `albums` object stores. -/
structure Store where
  photos : List PhotoRecord
  albums : List AlbumRec
deriving DecidableEq, Repr

/-- IndexedDB `db.put('albums', a)` with `keyPath: 'id'`. -/
def addAlbum (a : AlbumRec) (l : List AlbumRec) : List AlbumRec :=
  if l.any (fun x => x.id == a.id) then
    l.map (fun x => if x.id == a.id then a else x)
  else l ++ [a]

/-- Insertion step for the ascending `createdAt` album sort. -/
def insertAlbumAsc (a : AlbumRec) : List AlbumRec → List AlbumRec
  | [] => [a]
  | x :: xs =>
    if a.createdAt < x.createdAt then a :: x :: xs else x :: insertAlbumAsc a xs

/-- db.ts `getAllAlbums`: all albums sorted by `createdAt` ascending. -/
def getAllAlbums : List AlbumRec → List AlbumRec
  | [] => []
  | a :: rest => insertAlbumAsc a (getAllAlbums rest)

/-- sync.ts `importData` album sanitization: strip markup from the name
and cap it at 50 characters, strip markup from the icon. -/
def sanitizeAlbum (a : AlbumRec) : AlbumRec :=
  { a with name := ((stripHtmlTags a.name).toList.take 50).asString,
           icon := stripHtmlTags a.icon }

/-- sync.ts `importData` album loop: add each manifest album whose id is
not in the pre-import snapshot `ex` (sanitized), counting additions; the
snapshot is not updated during the loop. -/
def importAlbumsLoop (ex : List String) :
    List AlbumRec → List AlbumRec → Nat → List AlbumRec × Nat
  | [], albums, cnt => (albums, cnt)
  | a :: rest, albums, cnt =>
    if ex.contains a.id then importAlbumsLoop ex rest albums cnt
    else importAlbumsLoop ex rest (addAlbum (sanitizeAlbum a) albums) (cnt + 1)

/-- sync.ts `importData` photo reconstruction: the sanitized metadata
spread together with the archive's two payloads and the `albumIds`
default (`photoMeta.albumIds ?? []`). -/
def importedPhoto (meta : PhotoMeta) (b t : Bytes) : PhotoRecord :=
  { id := meta.id, name := sanitizeFileName meta.name,
    albumIds := some (meta.albumIds.getD []),
    createdAt := meta.createdAt, encrypted := meta.encrypted,
    blob := b, thumbnail := t }

/-- sync.ts `importData` photo loop: sanitize the name, skip ids already
in the pre-import snapshot `ex`, skip photos with either binary entry
missing from the archive, and otherwise rebuild the record (payloads from
the archive, `albumIds` defaulted) and `addPhoto` it, counting
additions. -/
def importPhotosLoop (A : AEAD) (ivs : Nat → Bytes) (ck : Option CKey)
    (ar : Archive) (ex : List String) :
    List PhotoMeta → List PhotoRecord → Nat → Nat → List PhotoRecord × Nat × Nat
  | [], photos, n, cnt => (photos, n, cnt)
  | meta :: rest, photos, n, cnt =>
    let pm := { meta with name := sanitizeFileName meta.name }
    if ex.contains pm.id then importPhotosLoop A ivs ck ar ex rest photos n cnt
    else
      match findFile ar.photoFiles pm.id, findFile ar.thumbFiles pm.id with
      | some b, some t =>
        let res := addPhoto A ivs ck n (importedPhoto meta b t) photos
        importPhotosLoop A ivs ck ar ex rest res.1 res.2 (cnt + 1)
      | _, _ => importPhotosLoop A ivs ck ar ex rest photos n cnt

/-- Error outcomes of sync.ts `importData`: the descriptive
"not a recognized backup" rejection for a missing manifest entry; the
raw `JSON.parse` SyntaxError for an unparseable one; the TypeError from
`metadata.photos.length` when the parsed manifest has no photos list; and
a decryption exception propagated out of `getAllPhotos`. -/
inductive ImportError
  | notRecognized
  | jsonParse
  | typeErrorPhotos
  | decryptFailed
deriving DecidableEq, Repr

/-- sync.ts `importData`: load the manifest (rejecting when the entry is
absent or unparseable), import albums new to the album-id snapshot, then
snapshot existing photos through `getAllPhotos` and import photos new to
that snapshot whose two binary entries are present.  Returns the result
(or the error), the store as left behind (writes before a failure
persist), and the nonce-supply position. -/
def importData (A : AEAD) (ivs : Nat → Bytes) (ck : Option CKey)
    (ar : Archive) (db : Store) (n : Nat) :
    Except ImportError (Nat × Nat) × Store × Nat :=
  match ar.metaFile with
  | .absent => (.error .notRecognized, db, n)
  | .unparseable => (.error .jsonParse, db, n)
  | .parsed m =>
    let exA := (getAllAlbums db.albums).map (fun a => a.id)
    let resA := importAlbumsLoop exA (m.albums.getD []) db.albums 0
    let db1 : Store := { db with albums := resA.1 }
    match getAllPhotos A ck db1.photos with
    | none => (.error .decryptFailed, db1, n)
    | some existingPhotos =>
      let exP := existingPhotos.map (fun p => p.id)
      match m.photos with
      | none => (.error .typeErrorPhotos, db1, n)
      | some ps =>
        let resP := importPhotosLoop A ivs ck ar exP ps db1.photos n 0
        (.ok (resP.2.2, resA.2), { db1 with photos := resP.1 }, resP.2.1)

/-- The album list of an archive's parsed manifest (after `?? []`). -/
def manifestAlbums (ar : Archive) : List AlbumRec :=
  match ar.metaFile with
  | .parsed m => m.albums.getD []
  | _ => []

/-- The photo-metadata list of an archive's parsed manifest. -/
def manifestPhotos (ar : Archive) : List PhotoMeta :=
  match ar.metaFile with
  | .parsed m => m.photos.getD []
  | _ => []

/-- A photo store is readable: every record survives the
`getAllPhotos` per-record decrypt step (no record throws). -/
def DecOK (A : AEAD) (ck : Option CKey) (ps : List PhotoRecord) : Prop :=
  ∀ r ∈ ps, decryptPhotoRecord A ck (defaultAlbums r) ≠ none

/-- Concrete album with markup in its name, for witnesses. -/
def cexAlbum : AlbumRec :=
  { id := "a1", name := "trip", icon := "star", createdAt := 1 }

/-- Concrete archive whose manifest parses but whose `photos` field is
missing (`metadata.photos.length` throws after album writes). -/
def cexBadShapeArchive : Archive :=
  { metaFile := .parsed { albums := some [cexAlbum], photos := none },
    photoFiles := [], thumbFiles := [] }

/-- Concrete photo metadata whose plain 60-character name exceeds the
50-character cap applied to album names. -/
def cexLongNameMeta : PhotoMeta :=
  { id := "p9", name := (List.replicate 60 'a').asString,
    albumIds := some [], createdAt := 3, encrypted := false }

/-- Concrete archive holding one photo with a 60-character name and both
of its binary entries. -/
def cexLongNameArchive : Archive :=
  { metaFile := .parsed { albums := some [], photos := some [cexLongNameMeta] },
    photoFiles := [("p9", [1, 2])], thumbFiles := [("p9", [3])] }

/-- Concrete well-formed archive with one album and one photo, for the
idempotence witness. -/
def cexGoodArchive : Archive :=
  { metaFile := .parsed { albums := some [cexAlbum],
                          photos := some [cexLongNameMeta] },
    photoFiles := [("p9", [1, 2])], thumbFiles := [("p9", [3])] }

/-- autobackup.ts `MIN_INTERVAL_MS = 30_000` (milliseconds). -/
def MIN_INTERVAL_MS : Int := 30000

/-- State of the auto-backup scheduler module: the host's armed timers
created by this module (`(id, fireTime)` pairs), the next timer id the
host will hand out, the module's `pendingTimer` variable, and its
`lastBackupTime` variable. -/
structure AutoBackupState where
  timers : List (Nat × Int)
  nextId : Nat
  pendingTimer : Option Nat
  lastBackupTime : Int
deriving DecidableEq, Repr

/-- autobackup.ts `cancelScheduledBackup`: `clearTimeout` the pending
timer, if any, and null the slot. -/
def cancelScheduledBackup (s : AutoBackupState) : AutoBackupState :=
  match s.pendingTimer with
  | none => s
  | some t =>
    { s with timers := s.timers.filter (fun x => x.1 != t),
             pendingTimer := none }

/-- autobackup.ts `scheduleAutoBackup` called at time `now`: cancel any
pending timer, compute `delay = max(5000, MIN_INTERVAL_MS - elapsed)`
with `elapsed = now - lastBackupTime`, and arm one new timer to fire at
`now + delay`. -/
def scheduleAutoBackup (now : Int) (s : AutoBackupState) : AutoBackupState :=
  let s1 := cancelScheduledBackup s
  let elapsed := now - s1.lastBackupTime
  let delay := max 5000 (MIN_INTERVAL_MS - elapsed)
  { s1 with timers := s1.timers ++ [(s1.nextId, now + delay)],
            pendingTimer := some s1.nextId,
            nextId := s1.nextId + 1 }

/-- A burst of `scheduleAutoBackup` calls at the given times, with no
timer firing in between (the calls fall inside the pending delay
windows). -/
def runSchedules (ts : List Int) (s : AutoBackupState) : AutoBackupState :=
  ts.foldl (fun s t => scheduleAutoBackup t s) s

/-- The pending timer's callback firing at time `fireTime`: the host
retires the timer, the module nulls `pendingTimer`, and — when
auto-backup is still enabled (and, in `performAutoBackup`, permission is
granted and the write succeeds, both folded into `enabled` here) —
exactly one backup executes and `lastBackupTime` is recorded.  The
returned Bool reports whether a backup executed. -/
def fireScheduled (enabled : Bool) (fireTime : Int) (s : AutoBackupState) :
    AutoBackupState × Bool :=
  match s.pendingTimer with
  | none => (s, false)
  | some t =>
    let s1 := { s with timers := s.timers.filter (fun x => x.1 != t),
                       pendingTimer := none }
    if enabled then ({ s1 with lastBackupTime := fireTime }, true)
    else (s1, false)

/-- Scheduler invariant: the module owns at most one armed timer, the one
`pendingTimer` points to. -/
def WFSched (s : AutoBackupState) : Prop :=
  match s.pendingTimer with
  | none => s.timers = []
  | some t => ∃ f, s.timers = [(t, f)]

/-- The scheduler module's state at load: no timer, `lastBackupTime`
0. -/
def initAutoBackupState : AutoBackupState :=
  { timers := [], nextId := 0, pendingTimer := none, lastBackupTime := 0 }

/-- Helper: splitting off a 12-byte nonce prefix recovers the nonce and
ciphertext, so decryption undoes `encryptBlobP` whenever the underlying
cipher round-trips at that nonce. -/
theorem decryptToBlob_encryptBlobP (A : AEAD) (k : CKey) (iv data : Bytes)
    (hiv : iv.length = IV_LENGTH)
    (hrt : A.dec k iv (A.enc k iv data) = some data) :
    decryptToBlob A (some k) (encryptBlobP A k iv data) = some data := by
  show A.dec k ((iv ++ A.enc k iv data).take IV_LENGTH)
        ((iv ++ A.enc k iv data).drop IV_LENGTH) = some data
  rw [← hiv, List.take_left, List.drop_left]
  exact hrt

/-- Claim C5: for every binary payload and every key, decrypting the
output of `encryptBlob` under the same key (splitting off the 12-byte
nonce prefix that `encryptBlob` prepends) returns exactly the payload.
The underlying cipher's round-trip at the drawn nonce is the explicit
hypothesis (crypto.subtle AES-GCM provides it). -/
theorem encryptBlob_roundtrip (A : AEAD) (k : CKey) (iv data c : Bytes)
    (hiv : iv.length = IV_LENGTH)
    (hrt : A.dec k iv (A.enc k iv data) = some data)
    (henc : encryptBlob A (some k) iv data = some c) :
    decryptToBlob A (some k) c = some data := by
  have hc : c = encryptBlobP A k iv data := by
    simpa [encryptBlob] using henc.symm
  rw [hc]
  exact decryptToBlob_encryptBlobP A k iv data hiv hrt

/-- Concrete instance of `encryptBlob_roundtrip` at the identity cipher,
a zero nonce and the payload `[1, 2, 3]`. -/
theorem encryptBlob_roundtrip_witness :
    decryptToBlob cexAEAD (some 0) (encryptBlobP cexAEAD 0 (cexIvs 0) [1, 2, 3]) =
      some [1, 2, 3] :=
  encryptBlob_roundtrip cexAEAD 0 (cexIvs 0) [1, 2, 3]
    (encryptBlobP cexAEAD 0 (cexIvs 0) [1, 2, 3]) (by decide) rfl rfl

/-- Claim C4: `verifyPassword` returns true exactly when authenticated
decryption succeeds with the fixed marker as plaintext, and any
decryption failure yields `false` (the result is a total Boolean: no
exception escapes). -/
theorem verifyPassword_spec (A : AEAD) (k : CKey) (iv data : Bytes) :
    (verifyPassword A k iv data = true ↔ A.dec k iv data = some VERIFICATION_BYTES) ∧
    (A.dec k iv data = none → verifyPassword A k iv data = false) := by
  constructor
  · unfold verifyPassword
    cases h : A.dec k iv data with
    | none => simp
    | some pt => simp [beq_iff_eq]
  · intro h
    unfold verifyPassword
    rw [h]

/-- Concrete instance of `verifyPassword_spec`: under the identity cipher
the stored marker itself verifies, and a cipher that always fails yields
`false`. -/
theorem verifyPassword_spec_witness :
    verifyPassword cexAEAD 0 (cexIvs 0) VERIFICATION_BYTES = true ∧
    verifyPassword ⟨fun _ _ d => d, fun _ _ _ => none⟩ 0 [] [] = false :=
  ⟨(verifyPassword_spec cexAEAD 0 (cexIvs 0) VERIFICATION_BYTES).1.mpr rfl,
   (verifyPassword_spec ⟨fun _ _ d => d, fun _ _ _ => none⟩ 0 [] []).2 rfl⟩

theorem defaultAlbums_id (r : PhotoRecord) : (defaultAlbums r).id = r.id := rfl

theorem encryptPhoto_id (A : AEAD) (k : CKey) (ivs : Nat → Bytes) (n : Nat)
    (p : PhotoRecord) : (encryptPhoto A k ivs n p).id = p.id := rfl

theorem putPhoto_of_mem_id (r : PhotoRecord) (db : List PhotoRecord)
    (h : ∃ y ∈ db, y.id = r.id) :
    putPhoto r db = db.map (fun x => if x.id == r.id then r else x) := by
  obtain ⟨y, hy, hid⟩ := h
  unfold putPhoto
  rw [if_pos]
  simp only [List.any_eq_true, beq_iff_eq]
  exact ⟨y, hy, hid⟩

theorem putPhoto_map_id (r : PhotoRecord) (db : List PhotoRecord)
    (h : ∃ y ∈ db, y.id = r.id) :
    (putPhoto r db).map (fun x => x.id) = db.map (fun x => x.id) := by
  rw [putPhoto_of_mem_id r db h, List.map_map]
  apply List.map_congr_left
  intro x _
  by_cases hxy : x.id = r.id
  · simp [hxy]
  · simp [hxy]

theorem putPhoto_mem_self (r : PhotoRecord) (db : List PhotoRecord)
    (h : ∃ y ∈ db, y.id = r.id) : r ∈ putPhoto r db := by
  obtain ⟨y, hy, hid⟩ := h
  rw [putPhoto_of_mem_id r db ⟨y, hy, hid⟩]
  exact List.mem_map.2 ⟨y, hy, by simp [hid]⟩

theorem putPhoto_mem_of_ne (r x : PhotoRecord) (db : List PhotoRecord)
    (hx : x ∈ db) (hne : x.id ≠ r.id) : x ∈ putPhoto r db := by
  unfold putPhoto
  by_cases h : db.any (fun y => y.id == r.id)
  · rw [if_pos h]
    exact List.mem_map.2 ⟨x, hx, by simp [hne]⟩
  · rw [if_neg h]
    exact List.mem_append_left _ hx

theorem putPhoto_mem_elim (r x : PhotoRecord) (db : List PhotoRecord)
    (hx : x ∈ putPhoto r db) : x = r ∨ (x ∈ db ∧ x.id ≠ r.id) := by
  unfold putPhoto at hx
  by_cases h : db.any (fun y => y.id == r.id)
  · rw [if_pos h] at hx
    obtain ⟨y, hy, hxy⟩ := List.mem_map.1 hx
    by_cases hyr : y.id = r.id
    · left
      rw [← hxy]
      simp [hyr]
    · right
      have hxx : x = y := by rw [← hxy]; simp [hyr]
      rw [hxx]
      exact ⟨hy, hyr⟩
  · rw [if_neg h] at hx
    rcases List.mem_append.1 hx with hin | hr
    · rw [List.any_eq_true] at h
      push_neg at h
      right
      refine ⟨hin, ?_⟩
      have := h x hin
      simpa [beq_iff_eq] using this
    · left
      simpa using hr

theorem putPhoto_eq_self (r : PhotoRecord) (db : List PhotoRecord)
    (hr : r ∈ db) (huniq : ∀ x ∈ db, x.id = r.id → x = r) :
    putPhoto r db = db := by
  rw [putPhoto_of_mem_id r db ⟨r, hr, rfl⟩]
  have hcong : ∀ x ∈ db, (if x.id == r.id then r else x) = id x := by
    intro x hx
    by_cases hxy : x.id = r.id
    · simp [hxy, (huniq x hx hxy).symm]
    · simp [hxy]
  rw [List.map_congr_left hcong, List.map_id]

theorem decryptPhotoRecord_noKey (A : AEAD) (r : PhotoRecord) :
    decryptPhotoRecord A none r = some r := rfl

theorem decryptPhotoList_noKey (A : AEAD) (db : List PhotoRecord) :
    decryptPhotoList A none db = some (db.map defaultAlbums) := by
  induction db with
  | nil => rfl
  | cons r rest ih =>
    unfold decryptPhotoList
    rw [decryptPhotoRecord_noKey, ih]
    rfl

/-- Amended claim C1: with no active key, `getAll()` and `get(id)` on a
store holding encrypted-tagged records do not fail; they return the
stored records unchanged except for the `albumIds` default — ciphertext
payloads and the `encrypted` tag included.  (The claim as stated —
failing loudly — is refuted by `noKey_getAll_returns_ciphertext`.) -/
theorem noKey_reads_return_stored (A : AEAD) (db : List PhotoRecord)
    (i : String) :
    getAllPhotos A none db = some (sortPhotosDesc (db.map defaultAlbums)) ∧
    getPhoto A none db i =
      some ((db.find? (fun r => r.id == i)).map defaultAlbums) := by
  constructor
  · unfold getAllPhotos
    rw [decryptPhotoList_noKey]
    rfl
  · unfold getPhoto
    cases h : db.find? (fun r => r.id == i) with
    | none => rfl
    | some r =>
      show (decryptPhotoRecord A none (defaultAlbums r)).map some =
        some (Option.map defaultAlbums (some r))
      rw [decryptPhotoRecord_noKey]
      rfl

/-- Counterexample to claim C1 as stated: a store holding a record tagged
`encrypted = true` is read back by `getAllPhotos` with no active key
without any error — the record is returned as-is, its ciphertext payloads
standing in for images — instead of failing loudly. -/
theorem noKey_getAll_returns_ciphertext :
    getAllPhotos cexAEAD none [cexEncPhoto] = some [cexEncPhoto] ∧
    cexEncPhoto.encrypted = true := by
  constructor
  · rfl
  · rfl

theorem decryptAllLoop_noKey (A : AEAD) (db : List PhotoRecord)
    (hnd : (db.map (fun r => r.id)).Nodup) :
    ∀ todo : List PhotoRecord, (∀ r ∈ todo, r ∈ db) →
      decryptAllLoop A none todo db = some db := by
  intro todo
  induction todo with
  | nil => intro _; rfl
  | cons r rest ih =>
    intro hsub
    have hr : r ∈ db := hsub r (List.mem_cons_self r rest)
    have huniq : ∀ x ∈ db, x.id = r.id → x = r := by
      intro x hx hid
      exact List.inj_on_of_nodup_map hnd hx hr hid
    unfold decryptAllLoop
    rw [decryptPhotoRecord_noKey]
    show decryptAllLoop A none rest (putPhoto r db) = some db
    rw [putPhoto_eq_self r db hr huniq]
    exact ih (fun x hx => hsub x (List.mem_cons_of_mem r hx))

/-- Claim C10: with no active key, `decryptAllPhotos` over a store with
unique ids rewrites every encrypted-tagged record with an identical copy
of itself (ciphertext payloads and `encrypted` tag included), so the
store is unchanged, while the processed count still reports one step per
encrypted record. -/
theorem decryptAll_noKey_noop (A : AEAD) (db : List PhotoRecord)
    (hnd : (db.map (fun r => r.id)).Nodup) :
    decryptAllPhotos A none db =
      some (db, (db.filter (fun r => r.encrypted)).length) := by
  show (decryptAllLoop A none (db.filter (fun r => r.encrypted)) db).map
      (fun db' => (db', (db.filter (fun r => r.encrypted)).length)) =
    some (db, (db.filter (fun r => r.encrypted)).length)
  rw [decryptAllLoop_noKey A db hnd (db.filter (fun r => r.encrypted))
    (fun r hr => (List.mem_filter.1 hr).1)]
  rfl

/-- Concrete instance of `decryptAll_noKey_noop` on a two-record store
with one encrypted record. -/
theorem decryptAll_noKey_noop_witness :
    (([cexEncPhoto,
       { id := "p2", blob := [1], thumbnail := [2], name := "q",
         albumIds := none, createdAt := 5,
         encrypted := false }] : List PhotoRecord).map (fun r => r.id)).Nodup ∧
    decryptAllPhotos cexAEAD none
      [cexEncPhoto,
       { id := "p2", blob := [1], thumbnail := [2], name := "q",
         albumIds := none, createdAt := 5, encrypted := false }] =
      some ([cexEncPhoto,
       { id := "p2", blob := [1], thumbnail := [2], name := "q",
         albumIds := none, createdAt := 5, encrypted := false }], 1) :=
  ⟨by decide, decryptAll_noKey_noop cexAEAD _ (by decide)⟩

theorem encryptAllLoop_spec (A : AEAD) (k : CKey) (ivs : Nat → Bytes) :
    ∀ (todo : List PhotoRecord) (n : Nat) (db : List PhotoRecord),
      (∀ r ∈ todo, r ∈ db) →
      ((db.map (fun r => r.id)).Nodup) →
      ((todo.map (fun r => r.id)).Nodup) →
      ((encryptAllLoop A k ivs todo n db).1.map (fun r => r.id) =
        db.map (fun r => r.id)) ∧
      (∀ x ∈ db, x.id ∉ todo.map (fun r => r.id) →
        x ∈ (encryptAllLoop A k ivs todo n db).1) ∧
      (∀ i, (h : i < todo.length) →
        encryptPhoto A k ivs (n + 2 * i) (defaultAlbums (todo.get ⟨i, h⟩)) ∈
          (encryptAllLoop A k ivs todo n db).1) ∧
      (∀ x ∈ (encryptAllLoop A k ivs todo n db).1,
        (x ∈ db ∧ x.id ∉ todo.map (fun r => r.id)) ∨
        ∃ i, ∃ (h : i < todo.length),
          x = encryptPhoto A k ivs (n + 2 * i) (defaultAlbums (todo.get ⟨i, h⟩))) := by
  intro todo
  induction todo with
  | nil =>
    intro n db _ _ _
    refine ⟨rfl, fun x hx _ => hx, fun i h => absurd h (by simp), ?_⟩
    intro x hx
    exact Or.inl ⟨hx, by simp⟩
  | cons r rest ih =>
    intro n db hsub hnd hndt
    have hr : r ∈ db := hsub r (List.mem_cons_self r rest)
    have heid : (encryptPhoto A k ivs n (defaultAlbums r)).id = r.id := rfl
    have hex : ∃ y ∈ db, y.id = (encryptPhoto A k ivs n (defaultAlbums r)).id :=
      ⟨r, hr, heid.symm⟩
    have hndt' : r.id ∉ rest.map (fun x => x.id) := by
      have := hndt
      simp only [List.map_cons, List.nodup_cons] at this
      exact this.1
    have hndrest : (rest.map (fun x => x.id)).Nodup := by
      have := hndt
      simp only [List.map_cons, List.nodup_cons] at this
      exact this.2
    set e := encryptPhoto A k ivs n (defaultAlbums r) with he
    set db1 := putPhoto e db with hdb1
    have hid1 : db1.map (fun x => x.id) = db.map (fun x => x.id) :=
      putPhoto_map_id e db hex
    have hnd1 : (db1.map (fun x => x.id)).Nodup := by rw [hid1]; exact hnd
    have hsub1 : ∀ x ∈ rest, x ∈ db1 := by
      intro x hx
      have hxid : x.id ∈ rest.map (fun y => y.id) := List.mem_map.2 ⟨x, hx, rfl⟩
      have hne : x.id ≠ e.id := by
        rw [heid]
        intro hcon
        exact hndt' (hcon ▸ hxid)
      exact putPhoto_mem_of_ne e x db (hsub x (List.mem_cons_of_mem r hx)) hne
    obtain ⟨ih1, ih2, ih3, ih4⟩ := ih (n + 2) db1 hsub1 hnd1 hndrest
    have hloop : encryptAllLoop A k ivs (r :: rest) n db =
        encryptAllLoop A k ivs rest (n + 2) db1 := rfl
    rw [hloop]
    refine ⟨ih1.trans hid1, ?_, ?_, ?_⟩
    · intro x hx hnotin
      have hne : x.id ≠ r.id := by
        intro hcon
        exact hnotin (by simp [hcon])
      have hx1 : x ∈ db1 := putPhoto_mem_of_ne e x db hx (heid ▸ hne)
      refine ih2 x hx1 ?_
      intro hcon
      exact hnotin (by simp [hcon])
    · intro i h
      match i with
      | 0 =>
        have hmem : e ∈ db1 := putPhoto_mem_self e db hex
        have : e ∈ (encryptAllLoop A k ivs rest (n + 2) db1).1 := by
          refine ih2 e hmem ?_
          rw [heid]
          exact hndt'
        simpa [he] using this
      | Nat.succ j =>
        have hj : j < rest.length := Nat.lt_of_succ_lt_succ h
        have := ih3 j hj
        have harith : n + 2 + 2 * j = n + 2 * (j + 1) := by ring
        rw [harith] at this
        simpa using this
    · intro x hx
      rcases ih4 x hx with ⟨hx1, hnotin⟩ | ⟨j, hj, hxe⟩
      · rcases putPhoto_mem_elim e x db hx1 with hxe | ⟨hxdb, hne⟩
        · right
          refine ⟨0, by simp, ?_⟩
          simpa [he] using hxe
        · left
          refine ⟨hxdb, ?_⟩
          intro hcon
          simp only [List.map_cons, List.mem_cons] at hcon
          rcases hcon with hcon | hcon
          · exact hne (heid ▸ hcon)
          · exact hnotin hcon
      · right
        refine ⟨j + 1, Nat.succ_lt_succ hj, ?_⟩
        have harith : n + 2 + 2 * j = n + 2 * (j + 1) := by ring
        rw [harith] at hxe
        simpa using hxe

/-- Claim C2: `encryptAllPhotos` with an active key is a resumable
migration on a store with unique ids: it processes exactly the records
not yet encrypted (the reported count is their number), persisting each
one with `put` before the next is processed (the sequential loop
`encryptAllLoop`); already-encrypted records are skipped and survive
untouched (no double encryption), the id multiset of the store is
preserved (no record lost or duplicated), and afterwards every record in
the store is tagged encrypted, each former plaintext record replaced by
exactly its own encryption. -/
theorem encryptAll_resumable (A : AEAD) (k : CKey) (ivs : Nat → Bytes)
    (db : List PhotoRecord) (hnd : (db.map (fun r => r.id)).Nodup) :
    ∃ db', encryptAllPhotos A ivs (some k) db =
        some (db', (db.filter (fun r => !r.encrypted)).length) ∧
      (db'.map (fun r => r.id) = db.map (fun r => r.id)) ∧
      (∀ x ∈ db', x.encrypted = true) ∧
      (∀ x ∈ db, x.encrypted = true → x ∈ db') ∧
      (∀ i, (h : i < (db.filter (fun r => !r.encrypted)).length) →
        encryptPhoto A k ivs (2 * i)
          (defaultAlbums ((db.filter (fun r => !r.encrypted)).get ⟨i, h⟩)) ∈ db') := by
  set plains := db.filter (fun r => !r.encrypted) with hplains
  have hsub : ∀ r ∈ plains, r ∈ db := fun r hr => (List.mem_filter.1 hr).1
  have hndp : (plains.map (fun r => r.id)).Nodup := by
    have hsublist : List.Sublist (plains.map (fun r => r.id))
        (db.map (fun r => r.id)) :=
      (List.filter_sublist db).map (fun r => r.id)
    exact hnd.sublist hsublist
  obtain ⟨h1, h2, h3, h4⟩ := encryptAllLoop_spec A k ivs plains 0 db hsub hnd hndp
  refine ⟨(encryptAllLoop A k ivs plains 0 db).1, rfl, h1, ?_, ?_, ?_⟩
  · intro x hx
    rcases h4 x hx with ⟨hxdb, hnotin⟩ | ⟨i, hi, hxe⟩
    · by_contra henc
      have hxf : x ∈ plains := by
        rw [hplains]
        exact List.mem_filter.2 ⟨hxdb, by simp [Bool.not_eq_true] at henc ⊢; exact henc⟩
      exact hnotin (List.mem_map.2 ⟨x, hxf, rfl⟩)
    · rw [hxe]
      rfl
  · intro x hx henc
    refine h2 x hx ?_
    intro hcon
    obtain ⟨p, hp, hpid⟩ := List.mem_map.1 hcon
    have hpx : p = x := List.inj_on_of_nodup_map hnd (hsub p hp) hx hpid
    have hpf := (List.mem_filter.1 hp).2
    rw [hpx, henc] at hpf
    simp at hpf
  · intro i h
    have := h3 i h
    simpa using this

/-- Concrete instance of `encryptAll_resumable` on a store interrupted
mid-migration: one record already encrypted, one still plaintext. -/
theorem encryptAll_resumable_witness :
    (([cexEncPhoto,
       { id := "p2", blob := [1], thumbnail := [2], name := "q",
         albumIds := none, createdAt := 5,
         encrypted := false }] : List PhotoRecord).map (fun r => r.id)).Nodup ∧
    (∃ db', encryptAllPhotos cexAEAD cexIvs (some 0)
        [cexEncPhoto,
         { id := "p2", blob := [1], thumbnail := [2], name := "q",
           albumIds := none, createdAt := 5, encrypted := false }] =
        some (db',
          (([cexEncPhoto,
             { id := "p2", blob := [1], thumbnail := [2], name := "q",
               albumIds := none, createdAt := 5,
               encrypted := false }] : List PhotoRecord).filter
            (fun r => !r.encrypted)).length) ∧
      (db'.map (fun r => r.id) =
        ([cexEncPhoto,
          { id := "p2", blob := [1], thumbnail := [2], name := "q",
            albumIds := none, createdAt := 5,
            encrypted := false }] : List PhotoRecord).map (fun r => r.id)) ∧
      (∀ x ∈ db', x.encrypted = true) ∧
      (∀ x ∈ ([cexEncPhoto,
          { id := "p2", blob := [1], thumbnail := [2], name := "q",
            albumIds := none, createdAt := 5,
            encrypted := false }] : List PhotoRecord), x.encrypted = true → x ∈ db') ∧
      (∀ i, (h : i < (([cexEncPhoto,
          { id := "p2", blob := [1], thumbnail := [2], name := "q",
            albumIds := none, createdAt := 5,
            encrypted := false }] : List PhotoRecord).filter
            (fun r => !r.encrypted)).length) →
        encryptPhoto cexAEAD 0 cexIvs (2 * i)
          (defaultAlbums ((([cexEncPhoto,
            { id := "p2", blob := [1], thumbnail := [2], name := "q",
              albumIds := none, createdAt := 5,
              encrypted := false }] : List PhotoRecord).filter
              (fun r => !r.encrypted)).get ⟨i, h⟩)) ∈ db')) :=
  ⟨by decide, encryptAll_resumable cexAEAD 0 cexIvs _ (by decide)⟩

/-- Amended claim C6: an archive with no manifest entry is rejected with
the descriptive "not a recognized backup" error before any reads or
writes, and an unparseable manifest entry aborts the import, also before
any writes, but with the raw JSON parse error rather than the descriptive
message.  (A manifest that parses without a valid photos list fails only
after album writes: `import_badShape_writes_then_throws`.) -/
theorem import_manifest_rejection (A : AEAD) (ivs : Nat → Bytes)
    (ck : Option CKey) (ar : Archive) (db : Store) (n : Nat) :
    (ar.metaFile = .absent →
      importData A ivs ck ar db n = (.error .notRecognized, db, n)) ∧
    (ar.metaFile = .unparseable →
      importData A ivs ck ar db n = (.error .jsonParse, db, n)) := by
  constructor
  · intro h
    unfold importData
    rw [h]
  · intro h
    unfold importData
    rw [h]

/-- Concrete instance of `import_manifest_rejection` for both rejection
branches, on an empty store. -/
theorem import_manifest_rejection_witness :
    importData cexAEAD cexIvs none
        ⟨.absent, [], []⟩ ⟨[], []⟩ 0 = (.error .notRecognized, ⟨[], []⟩, 0) ∧
    importData cexAEAD cexIvs none
        ⟨.unparseable, [], []⟩ ⟨[], []⟩ 0 = (.error .jsonParse, ⟨[], []⟩, 0) :=
  ⟨(import_manifest_rejection cexAEAD cexIvs none ⟨.absent, [], []⟩ ⟨[], []⟩ 0).1 rfl,
   (import_manifest_rejection cexAEAD cexIvs none ⟨.unparseable, [], []⟩ ⟨[], []⟩ 0).2 rfl⟩

/-- Counterexample to claim C6 as stated: an archive whose manifest entry
is present but malformed (it parses, yet its photos field is missing, so
it is not the expected shape) makes `importData` write the manifest's
albums into the store and only then fail — with a TypeError from
`metadata.photos.length`, not the descriptive "not a recognized backup"
error — so the store is not left unchanged. -/
theorem import_badShape_writes_then_throws :
    (importData cexAEAD cexIvs none cexBadShapeArchive ⟨[], []⟩ 0).1 =
      .error .typeErrorPhotos ∧
    (importData cexAEAD cexIvs none cexBadShapeArchive ⟨[], []⟩ 0).2.1 =
      ⟨[], [sanitizeAlbum cexAlbum]⟩ ∧
    (⟨[], [sanitizeAlbum cexAlbum]⟩ : Store) ≠ ⟨[], []⟩ := by
  refine ⟨?_, ?_, ?_⟩
  · rfl
  · rfl
  · decide

/-- Claim C7: in the photo-import loop, a new photo (id not in the
pre-import snapshot) with either binary entry missing from the archive is
skipped entirely — the store, nonce position and import count are
untouched by its iteration — and the loop continues with the remaining
photos rather than aborting. -/
theorem import_skips_photo_missing_binaries (A : AEAD) (ivs : Nat → Bytes)
    (ck : Option CKey) (ar : Archive) (ex : List String) (meta : PhotoMeta)
    (rest : List PhotoMeta) (photos : List PhotoRecord) (n cnt : Nat)
    (hnew : ex.contains meta.id = false)
    (hmiss : findFile ar.photoFiles meta.id = none ∨
      findFile ar.thumbFiles meta.id = none) :
    importPhotosLoop A ivs ck ar ex (meta :: rest) photos n cnt =
      importPhotosLoop A ivs ck ar ex rest photos n cnt := by
  have hpm : ({ meta with name := sanitizeFileName meta.name } : PhotoMeta).id =
      meta.id := rfl
  simp only [importPhotosLoop, hpm, hnew]
  rw [if_neg (by simp)]
  cases hfp : findFile ar.photoFiles meta.id with
  | none => rfl
  | some b =>
    cases hft : findFile ar.thumbFiles meta.id with
    | none => rfl
    | some t =>
      exfalso
      rcases hmiss with h | h
      · rw [hfp] at h
        exact Option.some_ne_none b h
      · rw [hft] at h
        exact Option.some_ne_none t h

/-- Concrete instance of `import_skips_photo_missing_binaries`: the
archive lacks the thumbnail entry for a new photo, whose iteration is a
no-op. -/
theorem import_skips_photo_missing_binaries_witness :
    importPhotosLoop cexAEAD cexIvs none
        ⟨.parsed ⟨some [], some [cexLongNameMeta]⟩, [("p9", [1, 2])], []⟩
        [] [cexLongNameMeta] [] 0 0 =
      importPhotosLoop cexAEAD cexIvs none
        ⟨.parsed ⟨some [], some [cexLongNameMeta]⟩, [("p9", [1, 2])], []⟩
        [] [] [] 0 0 :=
  import_skips_photo_missing_binaries cexAEAD cexIvs none
    ⟨.parsed ⟨some [], some [cexLongNameMeta]⟩, [("p9", [1, 2])], []⟩
    [] cexLongNameMeta [] [] 0 0 rfl (Or.inr rfl)

theorem sanitizeAlbum_id (a : AlbumRec) : (sanitizeAlbum a).id = a.id := rfl

theorem addAlbum_mem_elim (a x : AlbumRec) (l : List AlbumRec)
    (hx : x ∈ addAlbum a l) : x = a ∨ x ∈ l := by
  unfold addAlbum at hx
  by_cases h : l.any (fun y => y.id == a.id)
  · rw [if_pos h] at hx
    obtain ⟨y, hy, hxy⟩ := List.mem_map.1 hx
    by_cases hyr : y.id = a.id
    · left
      rw [← hxy]
      simp [hyr]
    · right
      have : x = y := by rw [← hxy]; simp [hyr]
      rw [this]
      exact hy
  · rw [if_neg h] at hx
    rcases List.mem_append.1 hx with hin | hr
    · exact Or.inr hin
    · exact Or.inl (by simpa using hr)

theorem addAlbum_mem_of_ne (a x : AlbumRec) (l : List AlbumRec)
    (hx : x ∈ l) (hne : x.id ≠ a.id) : x ∈ addAlbum a l := by
  unfold addAlbum
  by_cases h : l.any (fun y => y.id == a.id)
  · rw [if_pos h]
    exact List.mem_map.2 ⟨x, hx, by simp [hne]⟩
  · rw [if_neg h]
    exact List.mem_append_left _ hx

theorem addAlbum_id_mem (a : AlbumRec) (l : List AlbumRec) :
    a.id ∈ (addAlbum a l).map (fun x => x.id) := by
  unfold addAlbum
  by_cases h : l.any (fun y => y.id == a.id)
  · rw [if_pos h]
    rw [List.any_eq_true] at h
    obtain ⟨y, hy, hyid⟩ := h
    rw [beq_iff_eq] at hyid
    refine List.mem_map.2 ⟨a, List.mem_map.2 ⟨y, hy, ?_⟩, rfl⟩
    simp [hyid]
  · rw [if_neg h]
    exact List.mem_map.2 ⟨a, List.mem_append_right _ (List.mem_singleton.2 rfl), rfl⟩

theorem addAlbum_id_mono (a : AlbumRec) (l : List AlbumRec) (i : String)
    (hi : i ∈ l.map (fun x => x.id)) :
    i ∈ (addAlbum a l).map (fun x => x.id) := by
  obtain ⟨y, hy, hyid⟩ := List.mem_map.1 hi
  by_cases hya : y.id = a.id
  · rw [← hyid, hya]
    exact addAlbum_id_mem a l
  · exact List.mem_map.2 ⟨y, addAlbum_mem_of_ne a y l hy hya, hyid⟩

theorem insertAlbumAsc_mem (a x : AlbumRec) (l : List AlbumRec) :
    x ∈ insertAlbumAsc a l ↔ x = a ∨ x ∈ l := by
  induction l with
  | nil => simp [insertAlbumAsc]
  | cons y ys ih =>
    unfold insertAlbumAsc
    by_cases h : a.createdAt < y.createdAt
    · rw [if_pos h]
      simp
    · rw [if_neg h]
      simp only [List.mem_cons, ih]
      tauto

theorem getAllAlbums_mem (x : AlbumRec) (l : List AlbumRec) :
    x ∈ getAllAlbums l ↔ x ∈ l := by
  induction l with
  | nil => simp [getAllAlbums]
  | cons y ys ih =>
    unfold getAllAlbums
    rw [insertAlbumAsc_mem]
    simp only [List.mem_cons, ih]

theorem getAllAlbums_id_mem (l : List AlbumRec) (i : String) :
    i ∈ (getAllAlbums l).map (fun a => a.id) ↔ i ∈ l.map (fun a => a.id) := by
  constructor
  · intro h
    obtain ⟨y, hy, hyid⟩ := List.mem_map.1 h
    exact List.mem_map.2 ⟨y, (getAllAlbums_mem y l).1 hy, hyid⟩
  · intro h
    obtain ⟨y, hy, hyid⟩ := List.mem_map.1 h
    exact List.mem_map.2 ⟨y, (getAllAlbums_mem y l).2 hy, hyid⟩

theorem importAlbumsLoop_id_mono (ex : List String) (as : List AlbumRec) :
    ∀ (albums : List AlbumRec) (cnt : Nat) (i : String),
      i ∈ albums.map (fun a => a.id) →
      i ∈ (importAlbumsLoop ex as albums cnt).1.map (fun a => a.id) := by
  induction as with
  | nil => intro albums cnt i hi; exact hi
  | cons a rest ih =>
    intro albums cnt i hi
    unfold importAlbumsLoop
    by_cases h : ex.contains a.id
    · rw [if_pos h]
      exact ih albums cnt i hi
    · rw [if_neg h]
      exact ih _ _ i (addAlbum_id_mono (sanitizeAlbum a) albums i hi)

theorem importAlbumsLoop_covers (ex : List String) (as : List AlbumRec) :
    ∀ (albums : List AlbumRec) (cnt : Nat),
      (∀ i, ex.contains i = true → i ∈ albums.map (fun a => a.id)) →
      ∀ a ∈ as, a.id ∈ (importAlbumsLoop ex as albums cnt).1.map (fun x => x.id) := by
  induction as with
  | nil => intro _ _ _ a ha; exact absurd ha (by simp)
  | cons b rest ih =>
    intro albums cnt hex a ha
    unfold importAlbumsLoop
    by_cases h : ex.contains b.id
    · rw [if_pos h]
      rcases List.mem_cons.1 ha with rfl | ha'
      · exact importAlbumsLoop_id_mono ex rest albums cnt a.id (hex a.id h)
      · exact ih albums cnt hex a ha'
    · rw [if_neg h]
      have hex' : ∀ i, ex.contains i = true →
          i ∈ (addAlbum (sanitizeAlbum b) albums).map (fun x => x.id) :=
        fun i hi => addAlbum_id_mono (sanitizeAlbum b) albums i (hex i hi)
      rcases List.mem_cons.1 ha with rfl | ha'
      · have : a.id ∈ (addAlbum (sanitizeAlbum a) albums).map (fun x => x.id) := by
          have := addAlbum_id_mem (sanitizeAlbum a) albums
          rwa [sanitizeAlbum_id] at this
        exact importAlbumsLoop_id_mono ex rest _ _ a.id this
      · exact ih _ _ hex' a ha'

theorem importAlbumsLoop_preserves (ex : List String) (as : List AlbumRec) :
    ∀ (albums : List AlbumRec) (cnt : Nat) (x : AlbumRec),
      x ∈ albums → ex.contains x.id = true →
      x ∈ (importAlbumsLoop ex as albums cnt).1 := by
  induction as with
  | nil => intro _ _ x hx _; exact hx
  | cons b rest ih =>
    intro albums cnt x hx hxex
    unfold importAlbumsLoop
    by_cases h : ex.contains b.id
    · rw [if_pos h]
      exact ih albums cnt x hx hxex
    · rw [if_neg h]
      have hne : x.id ≠ (sanitizeAlbum b).id := by
        rw [sanitizeAlbum_id]
        intro hcon
        rw [hcon] at hxex
        exact h hxex
      exact ih _ _ x (addAlbum_mem_of_ne (sanitizeAlbum b) x albums hx hne) hxex

theorem importAlbumsLoop_skip (ex : List String) (as : List AlbumRec)
    (albums : List AlbumRec) (cnt : Nat)
    (hall : ∀ a ∈ as, ex.contains a.id = true) :
    importAlbumsLoop ex as albums cnt = (albums, cnt) := by
  induction as with
  | nil => rfl
  | cons b rest ih =>
    unfold importAlbumsLoop
    rw [if_pos (hall b (List.mem_cons_self b rest))]
    exact ih (fun a ha => hall a (List.mem_cons_of_mem b ha))

theorem importAlbumsLoop_mem_elim (ex : List String) (as : List AlbumRec) :
    ∀ (albums : List AlbumRec) (cnt : Nat) (x : AlbumRec),
      x ∈ (importAlbumsLoop ex as albums cnt).1 →
      x ∈ albums ∨ ∃ a ∈ as, x = sanitizeAlbum a := by
  induction as with
  | nil => intro _ _ x hx; exact Or.inl hx
  | cons b rest ih =>
    intro albums cnt x hx
    unfold importAlbumsLoop at hx
    by_cases h : ex.contains b.id
    · rw [if_pos h] at hx
      rcases ih albums cnt x hx with hin | ⟨a, ha, hxa⟩
      · exact Or.inl hin
      · exact Or.inr ⟨a, List.mem_cons_of_mem b ha, hxa⟩
    · rw [if_neg h] at hx
      rcases ih _ _ x hx with hin | ⟨a, ha, hxa⟩
      · rcases addAlbum_mem_elim (sanitizeAlbum b) x albums hin with hxb | hold
        · exact Or.inr ⟨b, List.mem_cons_self b rest, hxb⟩
        · exact Or.inl hold
      · exact Or.inr ⟨a, List.mem_cons_of_mem b ha, hxa⟩

theorem decryptPhotoRecord_id (A : AEAD) (ck : Option CKey) (r p : PhotoRecord)
    (h : decryptPhotoRecord A ck r = some p) : p.id = r.id := by
  unfold decryptPhotoRecord at h
  split at h
  · split at h
    · exact absurd h (by simp)
    · split at h
      · exact absurd h (by simp)
      · rw [← Option.some.inj h]
  · rw [← Option.some.inj h]

theorem decryptPhotoList_ids (A : AEAD) (ck : Option CKey) :
    ∀ (l l' : List PhotoRecord), decryptPhotoList A ck l = some l' →
      l'.map (fun r => r.id) = l.map (fun r => r.id) := by
  intro l
  induction l with
  | nil =>
    intro l' h
    have : l' = [] := by simpa [decryptPhotoList] using h.symm
    simp [this]
  | cons r rest ih =>
    intro l' h
    unfold decryptPhotoList at h
    cases hp : decryptPhotoRecord A ck (defaultAlbums r) with
    | none => rw [hp] at h; exact absurd h (by simp)
    | some p =>
      rw [hp] at h
      cases hps : decryptPhotoList A ck rest with
      | none => rw [hps] at h; exact absurd h (by simp)
      | some ps =>
        rw [hps] at h
        have hl : l' = p :: ps := (Option.some.inj h).symm
        rw [hl]
        simp only [List.map_cons]
        rw [ih ps hps, decryptPhotoRecord_id A ck _ p hp, defaultAlbums_id]

theorem insertPhotoDesc_mem (r x : PhotoRecord) (l : List PhotoRecord) :
    x ∈ insertPhotoDesc r l ↔ x = r ∨ x ∈ l := by
  induction l with
  | nil => simp [insertPhotoDesc]
  | cons y ys ih =>
    unfold insertPhotoDesc
    by_cases h : y.createdAt < r.createdAt
    · rw [if_pos h]
      simp
    · rw [if_neg h]
      simp only [List.mem_cons, ih]
      tauto

theorem sortPhotosDesc_mem (x : PhotoRecord) (l : List PhotoRecord) :
    x ∈ sortPhotosDesc l ↔ x ∈ l := by
  induction l with
  | nil => simp [sortPhotosDesc]
  | cons y ys ih =>
    unfold sortPhotosDesc
    rw [insertPhotoDesc_mem]
    simp only [List.mem_cons, ih]

theorem getAllPhotos_ids (A : AEAD) (ck : Option CKey)
    (ps l : List PhotoRecord) (h : getAllPhotos A ck ps = some l) (i : String) :
    i ∈ l.map (fun r => r.id) ↔ i ∈ ps.map (fun r => r.id) := by
  unfold getAllPhotos at h
  cases hdl : decryptPhotoList A ck ps with
  | none => rw [hdl] at h; exact absurd h (by simp)
  | some l' =>
    rw [hdl] at h
    have hl : l = sortPhotosDesc l' := (Option.some.inj h).symm
    have hids := decryptPhotoList_ids A ck ps l' hdl
    constructor
    · intro hi
      obtain ⟨y, hy, hyid⟩ := List.mem_map.1 hi
      rw [hl] at hy
      rw [← hids]
      exact List.mem_map.2 ⟨y, (sortPhotosDesc_mem y l').1 hy, hyid⟩
    · intro hi
      rw [← hids] at hi
      obtain ⟨y, hy, hyid⟩ := List.mem_map.1 hi
      rw [hl]
      exact List.mem_map.2 ⟨y, (sortPhotosDesc_mem y l').2 hy, hyid⟩

theorem decOK_of_getAllPhotos (A : AEAD) (ck : Option CKey)
    (ps l : List PhotoRecord) (h : getAllPhotos A ck ps = some l) :
    DecOK A ck ps := by
  unfold getAllPhotos at h
  cases hdl : decryptPhotoList A ck ps with
  | none => rw [hdl] at h; exact absurd h (by simp)
  | some l' =>
    clear h
    induction ps generalizing l' with
    | nil => intro r hr; exact absurd hr (by simp)
    | cons r rest ih =>
      unfold decryptPhotoList at hdl
      cases hp : decryptPhotoRecord A ck (defaultAlbums r) with
      | none => rw [hp] at hdl; exact absurd hdl (by simp)
      | some p =>
        rw [hp] at hdl
        cases hps : decryptPhotoList A ck rest with
        | none => rw [hps] at hdl; exact absurd hdl (by simp)
        | some ps' =>
          intro x hx
          rcases List.mem_cons.1 hx with rfl | hx'
          · rw [hp]; simp
          · exact ih ps' hps x hx'

theorem decryptPhotoList_of_decOK (A : AEAD) (ck : Option CKey) :
    ∀ ps : List PhotoRecord, DecOK A ck ps →
      ∃ l', decryptPhotoList A ck ps = some l' := by
  intro ps
  induction ps with
  | nil => intro _; exact ⟨[], rfl⟩
  | cons r rest ih =>
    intro h
    have hr := h r (List.mem_cons_self r rest)
    cases hp : decryptPhotoRecord A ck (defaultAlbums r) with
    | none => exact absurd hp hr
    | some p =>
      obtain ⟨l', hl'⟩ := ih (fun x hx => h x (List.mem_cons_of_mem r hx))
      refine ⟨p :: l', ?_⟩
      unfold decryptPhotoList
      rw [hp, hl']

theorem getAllPhotos_of_decOK (A : AEAD) (ck : Option CKey)
    (ps : List PhotoRecord) (h : DecOK A ck ps) :
    ∃ l, getAllPhotos A ck ps = some l := by
  obtain ⟨l', hl'⟩ := decryptPhotoList_of_decOK A ck ps h
  exact ⟨sortPhotosDesc l', by unfold getAllPhotos; rw [hl']; rfl⟩

theorem decOK_noKey (A : AEAD) (ps : List PhotoRecord) : DecOK A none ps := by
  intro r _
  rw [decryptPhotoRecord_noKey]
  simp

theorem putPhoto_id_mem (r : PhotoRecord) (db : List PhotoRecord) :
    r.id ∈ (putPhoto r db).map (fun x => x.id) := by
  unfold putPhoto
  by_cases h : db.any (fun y => y.id == r.id)
  · rw [if_pos h]
    rw [List.any_eq_true] at h
    obtain ⟨y, hy, hyid⟩ := h
    rw [beq_iff_eq] at hyid
    refine List.mem_map.2 ⟨r, List.mem_map.2 ⟨y, hy, ?_⟩, rfl⟩
    simp [hyid]
  · rw [if_neg h]
    exact List.mem_map.2 ⟨r, List.mem_append_right _ (List.mem_singleton.2 rfl), rfl⟩

theorem putPhoto_id_mono (r : PhotoRecord) (db : List PhotoRecord) (i : String)
    (hi : i ∈ db.map (fun x => x.id)) :
    i ∈ (putPhoto r db).map (fun x => x.id) := by
  obtain ⟨y, hy, hyid⟩ := List.mem_map.1 hi
  by_cases hya : y.id = r.id
  · rw [← hyid, hya]
    exact putPhoto_id_mem r db
  · exact List.mem_map.2 ⟨y, putPhoto_mem_of_ne r y db hy hya, hyid⟩

theorem encryptPhoto_name (A : AEAD) (k : CKey) (ivs : Nat → Bytes) (n : Nat)
    (p : PhotoRecord) : (encryptPhoto A k ivs n p).name = p.name := rfl

theorem defaultAlbums_name (r : PhotoRecord) : (defaultAlbums r).name = r.name := rfl

theorem addPhoto_id_mem (A : AEAD) (ivs : Nat → Bytes) (ck : Option CKey)
    (n : Nat) (photo : PhotoRecord) (db : List PhotoRecord) :
    photo.id ∈ (addPhoto A ivs ck n photo db).1.map (fun x => x.id) := by
  unfold addPhoto
  cases ck with
  | none =>
    have := putPhoto_id_mem (defaultAlbums photo) db
    rwa [defaultAlbums_id] at this
  | some k =>
    have := putPhoto_id_mem (encryptPhoto A k ivs n (defaultAlbums photo)) db
    rwa [encryptPhoto_id, defaultAlbums_id] at this

theorem addPhoto_id_mono (A : AEAD) (ivs : Nat → Bytes) (ck : Option CKey)
    (n : Nat) (photo : PhotoRecord) (db : List PhotoRecord) (i : String)
    (hi : i ∈ db.map (fun x => x.id)) :
    i ∈ (addPhoto A ivs ck n photo db).1.map (fun x => x.id) := by
  unfold addPhoto
  cases ck with
  | none => exact putPhoto_id_mono _ db i hi
  | some k => exact putPhoto_id_mono _ db i hi

theorem addPhoto_mem_of_ne (A : AEAD) (ivs : Nat → Bytes) (ck : Option CKey)
    (n : Nat) (photo x : PhotoRecord) (db : List PhotoRecord)
    (hx : x ∈ db) (hne : x.id ≠ photo.id) :
    x ∈ (addPhoto A ivs ck n photo db).1 := by
  unfold addPhoto
  cases ck with
  | none =>
    exact putPhoto_mem_of_ne _ x db hx (by rwa [defaultAlbums_id])
  | some k =>
    exact putPhoto_mem_of_ne _ x db hx (by rwa [encryptPhoto_id, defaultAlbums_id])

theorem addPhoto_mem_elim (A : AEAD) (ivs : Nat → Bytes) (ck : Option CKey)
    (n : Nat) (photo x : PhotoRecord) (db : List PhotoRecord)
    (hx : x ∈ (addPhoto A ivs ck n photo db).1) :
    x ∈ db ∨ (ck = none ∧ x = defaultAlbums photo) ∨
      (∃ k, ck = some k ∧ x = encryptPhoto A k ivs n (defaultAlbums photo)) := by
  unfold addPhoto at hx
  cases ck with
  | none =>
    rcases putPhoto_mem_elim _ x db hx with hxe | ⟨hin, _⟩
    · exact Or.inr (Or.inl ⟨rfl, hxe⟩)
    · exact Or.inl hin
  | some k =>
    rcases putPhoto_mem_elim _ x db hx with hxe | ⟨hin, _⟩
    · exact Or.inr (Or.inr ⟨k, rfl, hxe⟩)
    · exact Or.inl hin

theorem decryptPhotoRecord_encryptPhoto (A : AEAD) (k : CKey)
    (ivs : Nat → Bytes) (n : Nat) (p : PhotoRecord)
    (hA : ∀ k iv d, iv.length = IV_LENGTH → A.dec k iv (A.enc k iv d) = some d)
    (hiv : ∀ j, (ivs j).length = IV_LENGTH) :
    decryptPhotoRecord A (some k) (defaultAlbums (encryptPhoto A k ivs n p)) ≠
      none := by
  have hb : decryptToBlob A (some k)
      (defaultAlbums (encryptPhoto A k ivs n p)).blob = some p.blob := by
    show decryptToBlob A (some k) (encryptBlobP A k (ivs n) p.blob) = some p.blob
    exact decryptToBlob_encryptBlobP A k (ivs n) p.blob (hiv n)
      (hA k (ivs n) p.blob (hiv n))
  have ht : decryptToBlob A (some k)
      (defaultAlbums (encryptPhoto A k ivs n p)).thumbnail =
        some p.thumbnail := by
    show decryptToBlob A (some k) (encryptBlobP A k (ivs (n + 1)) p.thumbnail) =
      some p.thumbnail
    exact decryptToBlob_encryptBlobP A k (ivs (n + 1)) p.thumbnail (hiv (n + 1))
      (hA k (ivs (n + 1)) p.thumbnail (hiv (n + 1)))
  unfold decryptPhotoRecord
  split
  · rename_i k2 hk henc2
    obtain rfl : k = k2 := Option.some.inj hk
    rw [hb, ht]
    simp
  · simp

theorem decOK_addPhoto (A : AEAD) (ivs : Nat → Bytes) (ck : Option CKey)
    (n : Nat) (photo : PhotoRecord) (db : List PhotoRecord)
    (hA : ∀ k iv d, iv.length = IV_LENGTH → A.dec k iv (A.enc k iv d) = some d)
    (hiv : ∀ j, (ivs j).length = IV_LENGTH)
    (hdb : DecOK A ck db) : DecOK A ck (addPhoto A ivs ck n photo db).1 := by
  intro x hx
  rcases addPhoto_mem_elim A ivs ck n photo x db hx with hin | ⟨hck, hxe⟩ | ⟨k, hck, hxe⟩
  · exact hdb x hin
  · rw [hck, hxe]
    rw [decryptPhotoRecord_noKey]
    simp
  · rw [hck, hxe]
    have hda : defaultAlbums (defaultAlbums photo) = defaultAlbums photo := rfl
    have := decryptPhotoRecord_encryptPhoto A k ivs n (defaultAlbums photo) hA hiv
    simpa [defaultAlbums, encryptPhoto] using this

theorem importedPhoto_id (meta : PhotoMeta) (b t : Bytes) :
    (importedPhoto meta b t).id = meta.id := rfl

theorem phStep_skipEx (A : AEAD) (ivs : Nat → Bytes) (ck : Option CKey)
    (ar : Archive) (ex : List String) (meta : PhotoMeta) (rest : List PhotoMeta)
    (photos : List PhotoRecord) (n cnt : Nat)
    (h : ex.contains meta.id = true) :
    importPhotosLoop A ivs ck ar ex (meta :: rest) photos n cnt =
      importPhotosLoop A ivs ck ar ex rest photos n cnt := by
  have hpm : ({ meta with name := sanitizeFileName meta.name } : PhotoMeta).id =
      meta.id := rfl
  simp only [importPhotosLoop, hpm, h, if_true]

theorem phStep_missing (A : AEAD) (ivs : Nat → Bytes) (ck : Option CKey)
    (ar : Archive) (ex : List String) (meta : PhotoMeta) (rest : List PhotoMeta)
    (photos : List PhotoRecord) (n cnt : Nat)
    (hnew : ex.contains meta.id = false)
    (hmiss : findFile ar.photoFiles meta.id = none ∨
      findFile ar.thumbFiles meta.id = none) :
    importPhotosLoop A ivs ck ar ex (meta :: rest) photos n cnt =
      importPhotosLoop A ivs ck ar ex rest photos n cnt := by
  have hpm : ({ meta with name := sanitizeFileName meta.name } : PhotoMeta).id =
      meta.id := rfl
  simp only [importPhotosLoop, hpm, hnew]
  rw [if_neg (by simp)]
  cases hfp : findFile ar.photoFiles meta.id with
  | none => rfl
  | some b =>
    cases hft : findFile ar.thumbFiles meta.id with
    | none => rfl
    | some t =>
      exfalso
      rcases hmiss with h | h
      · rw [hfp] at h
        exact Option.some_ne_none b h
      · rw [hft] at h
        exact Option.some_ne_none t h

theorem phStep_add (A : AEAD) (ivs : Nat → Bytes) (ck : Option CKey)
    (ar : Archive) (ex : List String) (meta : PhotoMeta) (rest : List PhotoMeta)
    (photos : List PhotoRecord) (n cnt : Nat) (b t : Bytes)
    (hnew : ex.contains meta.id = false)
    (hb : findFile ar.photoFiles meta.id = some b)
    (ht : findFile ar.thumbFiles meta.id = some t) :
    importPhotosLoop A ivs ck ar ex (meta :: rest) photos n cnt =
      importPhotosLoop A ivs ck ar ex rest
        (addPhoto A ivs ck n (importedPhoto meta b t) photos).1
        (addPhoto A ivs ck n (importedPhoto meta b t) photos).2 (cnt + 1) := by
  have hpm : ({ meta with name := sanitizeFileName meta.name } : PhotoMeta).id =
      meta.id := rfl
  simp only [importPhotosLoop, hpm, hnew]
  rw [if_neg (by simp), hb, ht]

theorem importPhotosLoop_id_mono (A : AEAD) (ivs : Nat → Bytes)
    (ck : Option CKey) (ar : Archive) (ex : List String) :
    ∀ (ms : List PhotoMeta) (photos : List PhotoRecord) (n cnt : Nat)
      (i : String), i ∈ photos.map (fun x => x.id) →
      i ∈ (importPhotosLoop A ivs ck ar ex ms photos n cnt).1.map
        (fun x => x.id) := by
  intro ms
  induction ms with
  | nil => intro photos n cnt i hi; exact hi
  | cons meta rest ih =>
    intro photos n cnt i hi
    by_cases hex : ex.contains meta.id = true
    · rw [phStep_skipEx A ivs ck ar ex meta rest photos n cnt hex]
      exact ih photos n cnt i hi
    · have hex' : ex.contains meta.id = false := by simpa using hex
      cases hfp : findFile ar.photoFiles meta.id with
      | none =>
        rw [phStep_missing A ivs ck ar ex meta rest photos n cnt hex'
          (Or.inl hfp)]
        exact ih photos n cnt i hi
      | some b =>
        cases hft : findFile ar.thumbFiles meta.id with
        | none =>
          rw [phStep_missing A ivs ck ar ex meta rest photos n cnt hex'
            (Or.inr hft)]
          exact ih photos n cnt i hi
        | some t =>
          rw [phStep_add A ivs ck ar ex meta rest photos n cnt b t hex' hfp hft]
          exact ih _ _ _ i (addPhoto_id_mono A ivs ck n _ photos i hi)

theorem importPhotosLoop_covers (A : AEAD) (ivs : Nat → Bytes)
    (ck : Option CKey) (ar : Archive) (ex : List String) :
    ∀ (ms : List PhotoMeta) (photos : List PhotoRecord) (n cnt : Nat),
      (∀ i, ex.contains i = true → i ∈ photos.map (fun x => x.id)) →
      ∀ m ∈ ms,
        m.id ∈ (importPhotosLoop A ivs ck ar ex ms photos n cnt).1.map
          (fun x => x.id) ∨
        findFile ar.photoFiles m.id = none ∨
        findFile ar.thumbFiles m.id = none := by
  intro ms
  induction ms with
  | nil => intro _ _ _ _ m hm; exact absurd hm (by simp)
  | cons meta rest ih =>
    intro photos n cnt hexsub m hm
    by_cases hex : ex.contains meta.id = true
    · rw [phStep_skipEx A ivs ck ar ex meta rest photos n cnt hex]
      rcases List.mem_cons.1 hm with rfl | hm'
      · exact Or.inl (importPhotosLoop_id_mono A ivs ck ar ex rest photos n cnt
          m.id (hexsub m.id hex))
      · exact ih photos n cnt hexsub m hm'
    · have hex' : ex.contains meta.id = false := by simpa using hex
      cases hfp : findFile ar.photoFiles meta.id with
      | none =>
        rw [phStep_missing A ivs ck ar ex meta rest photos n cnt hex'
          (Or.inl hfp)]
        rcases List.mem_cons.1 hm with rfl | hm'
        · exact Or.inr (Or.inl hfp)
        · exact ih photos n cnt hexsub m hm'
      | some b =>
        cases hft : findFile ar.thumbFiles meta.id with
        | none =>
          rw [phStep_missing A ivs ck ar ex meta rest photos n cnt hex'
            (Or.inr hft)]
          rcases List.mem_cons.1 hm with rfl | hm'
          · exact Or.inr (Or.inr hft)
          · exact ih photos n cnt hexsub m hm'
        | some t =>
          rw [phStep_add A ivs ck ar ex meta rest photos n cnt b t hex' hfp hft]
          have hexsub' : ∀ i, ex.contains i = true →
              i ∈ (addPhoto A ivs ck n (importedPhoto meta b t) photos).1.map
                (fun x => x.id) :=
            fun i hi => addPhoto_id_mono A ivs ck n _ photos i (hexsub i hi)
          rcases List.mem_cons.1 hm with rfl | hm'
          · refine Or.inl (importPhotosLoop_id_mono A ivs ck ar ex rest _ _ _
              m.id ?_)
            have := addPhoto_id_mem A ivs ck n (importedPhoto m b t) photos
            rwa [importedPhoto_id] at this
          · exact ih _ _ _ hexsub' m hm'

theorem importPhotosLoop_preserves (A : AEAD) (ivs : Nat → Bytes)
    (ck : Option CKey) (ar : Archive) (ex : List String) :
    ∀ (ms : List PhotoMeta) (photos : List PhotoRecord) (n cnt : Nat)
      (x : PhotoRecord), x ∈ photos → ex.contains x.id = true →
      x ∈ (importPhotosLoop A ivs ck ar ex ms photos n cnt).1 := by
  intro ms
  induction ms with
  | nil => intro _ _ _ x hx _; exact hx
  | cons meta rest ih =>
    intro photos n cnt x hx hxex
    by_cases hex : ex.contains meta.id = true
    · rw [phStep_skipEx A ivs ck ar ex meta rest photos n cnt hex]
      exact ih photos n cnt x hx hxex
    · have hex' : ex.contains meta.id = false := by simpa using hex
      cases hfp : findFile ar.photoFiles meta.id with
      | none =>
        rw [phStep_missing A ivs ck ar ex meta rest photos n cnt hex'
          (Or.inl hfp)]
        exact ih photos n cnt x hx hxex
      | some b =>
        cases hft : findFile ar.thumbFiles meta.id with
        | none =>
          rw [phStep_missing A ivs ck ar ex meta rest photos n cnt hex'
            (Or.inr hft)]
          exact ih photos n cnt x hx hxex
        | some t =>
          rw [phStep_add A ivs ck ar ex meta rest photos n cnt b t hex' hfp hft]
          have hne : x.id ≠ (importedPhoto meta b t).id := by
            rw [importedPhoto_id]
            intro hcon
            rw [hcon] at hxex
            exact hex hxex
          exact ih _ _ _ x
            (addPhoto_mem_of_ne A ivs ck n _ x photos hx hne) hxex

theorem importPhotosLoop_decok (A : AEAD) (ivs : Nat → Bytes)
    (ck : Option CKey) (ar : Archive) (ex : List String)
    (hA : ∀ k iv d, iv.length = IV_LENGTH → A.dec k iv (A.enc k iv d) = some d)
    (hiv : ∀ j, (ivs j).length = IV_LENGTH) :
    ∀ (ms : List PhotoMeta) (photos : List PhotoRecord) (n cnt : Nat),
      DecOK A ck photos →
      DecOK A ck (importPhotosLoop A ivs ck ar ex ms photos n cnt).1 := by
  intro ms
  induction ms with
  | nil => intro _ _ _ h; exact h
  | cons meta rest ih =>
    intro photos n cnt h
    by_cases hex : ex.contains meta.id = true
    · rw [phStep_skipEx A ivs ck ar ex meta rest photos n cnt hex]
      exact ih photos n cnt h
    · have hex' : ex.contains meta.id = false := by simpa using hex
      cases hfp : findFile ar.photoFiles meta.id with
      | none =>
        rw [phStep_missing A ivs ck ar ex meta rest photos n cnt hex'
          (Or.inl hfp)]
        exact ih photos n cnt h
      | some b =>
        cases hft : findFile ar.thumbFiles meta.id with
        | none =>
          rw [phStep_missing A ivs ck ar ex meta rest photos n cnt hex'
            (Or.inr hft)]
          exact ih photos n cnt h
        | some t =>
          rw [phStep_add A ivs ck ar ex meta rest photos n cnt b t hex' hfp hft]
          exact ih _ _ _ (decOK_addPhoto A ivs ck n _ photos hA hiv h)

theorem importPhotosLoop_skip (A : AEAD) (ivs : Nat → Bytes)
    (ck : Option CKey) (ar : Archive) (ex : List String) :
    ∀ (ms : List PhotoMeta) (photos : List PhotoRecord) (n cnt : Nat),
      (∀ m ∈ ms, ex.contains m.id = true ∨
        findFile ar.photoFiles m.id = none ∨
        findFile ar.thumbFiles m.id = none) →
      importPhotosLoop A ivs ck ar ex ms photos n cnt = (photos, n, cnt) := by
  intro ms
  induction ms with
  | nil => intro _ _ _ _; rfl
  | cons meta rest ih =>
    intro photos n cnt hall
    have hrest : ∀ m ∈ rest, ex.contains m.id = true ∨
        findFile ar.photoFiles m.id = none ∨
        findFile ar.thumbFiles m.id = none :=
      fun m hm => hall m (List.mem_cons_of_mem meta hm)
    by_cases hex : ex.contains meta.id = true
    · rw [phStep_skipEx A ivs ck ar ex meta rest photos n cnt hex]
      exact ih photos n cnt hrest
    · have hex' : ex.contains meta.id = false := by simpa using hex
      have hmiss : findFile ar.photoFiles meta.id = none ∨
          findFile ar.thumbFiles meta.id = none := by
        rcases hall meta (List.mem_cons_self meta rest) with hc | hm
        · exact absurd hc hex
        · exact hm
      rw [phStep_missing A ivs ck ar ex meta rest photos n cnt hex' hmiss]
      exact ih photos n cnt hrest

theorem importPhotosLoop_mem_elim (A : AEAD) (ivs : Nat → Bytes)
    (ck : Option CKey) (ar : Archive) (ex : List String) :
    ∀ (ms : List PhotoMeta) (photos : List PhotoRecord) (n cnt : Nat)
      (x : PhotoRecord),
      x ∈ (importPhotosLoop A ivs ck ar ex ms photos n cnt).1 →
      x ∈ photos ∨ ∃ m ∈ ms, x.name = sanitizeFileName m.name := by
  intro ms
  induction ms with
  | nil => intro _ _ _ x hx; exact Or.inl hx
  | cons meta rest ih =>
    intro photos n cnt x hx
    by_cases hex : ex.contains meta.id = true
    · rw [phStep_skipEx A ivs ck ar ex meta rest photos n cnt hex] at hx
      rcases ih photos n cnt x hx with hin | ⟨m, hm, hxm⟩
      · exact Or.inl hin
      · exact Or.inr ⟨m, List.mem_cons_of_mem meta hm, hxm⟩
    · have hex' : ex.contains meta.id = false := by simpa using hex
      cases hfp : findFile ar.photoFiles meta.id with
      | none =>
        rw [phStep_missing A ivs ck ar ex meta rest photos n cnt hex'
          (Or.inl hfp)] at hx
        rcases ih photos n cnt x hx with hin | ⟨m, hm, hxm⟩
        · exact Or.inl hin
        · exact Or.inr ⟨m, List.mem_cons_of_mem meta hm, hxm⟩
      | some b =>
        cases hft : findFile ar.thumbFiles meta.id with
        | none =>
          rw [phStep_missing A ivs ck ar ex meta rest photos n cnt hex'
            (Or.inr hft)] at hx
          rcases ih photos n cnt x hx with hin | ⟨m, hm, hxm⟩
          · exact Or.inl hin
          · exact Or.inr ⟨m, List.mem_cons_of_mem meta hm, hxm⟩
        | some t =>
          rw [phStep_add A ivs ck ar ex meta rest photos n cnt b t hex'
            hfp hft] at hx
          rcases ih _ _ _ x hx with hin | ⟨m, hm, hxm⟩
          · rcases addPhoto_mem_elim A ivs ck n _ x photos hin with
              hold | ⟨_, hxe⟩ | ⟨k, _, hxe⟩
            · exact Or.inl hold
            · refine Or.inr ⟨meta, List.mem_cons_self meta rest, ?_⟩
              rw [hxe]
              rfl
            · refine Or.inr ⟨meta, List.mem_cons_self meta rest, ?_⟩
              rw [hxe]
              rfl
          · exact Or.inr ⟨m, List.mem_cons_of_mem meta hm, hxm⟩

/-- Amended claim C9: every record that `importData` adds to the store
has a sanitized name, but the two kinds differ: an added album is the
manifest album with markup stripped from its name and the name capped at
50 characters (and markup stripped from its icon), while an added photo
carries `sanitizeFileName` of the manifest name — markup, unsafe and
control characters, and `..` sequences removed and whitespace trimmed —
with no length cap (see `import_photoName_not_capped`). -/
theorem import_sanitizes_names (A : AEAD) (ivs : Nat → Bytes)
    (ck : Option CKey) (ar : Archive) (db : Store) (n : Nat)
    (res : Except ImportError (Nat × Nat)) (db2 : Store) (n2 : Nat)
    (h : importData A ivs ck ar db n = (res, db2, n2)) :
    (∀ a ∈ db2.albums,
      a ∈ db.albums ∨ ∃ b ∈ manifestAlbums ar, a = sanitizeAlbum b) ∧
    (∀ r ∈ db2.photos,
      r ∈ db.photos ∨
        ∃ m ∈ manifestPhotos ar, r.name = sanitizeFileName m.name) := by
  cases hmeta : ar.metaFile with
  | absent =>
    simp only [importData, hmeta] at h
    injection h with h1 h23
    injection h23 with h2 h3
    rw [← h2]
    exact ⟨fun a ha => Or.inl ha, fun r hr => Or.inl hr⟩
  | unparseable =>
    simp only [importData, hmeta] at h
    injection h with h1 h23
    injection h23 with h2 h3
    rw [← h2]
    exact ⟨fun a ha => Or.inl ha, fun r hr => Or.inl hr⟩
  | parsed m =>
    have halb : manifestAlbums ar = m.albums.getD [] := by
      simp [manifestAlbums, hmeta]
    simp only [importData, hmeta] at h
    cases hga : getAllPhotos A ck db.photos with
    | none =>
      simp only [hga] at h
      injection h with h1 h23
      injection h23 with h2 h3
      rw [← h2]
      constructor
      · intro a ha
        rcases importAlbumsLoop_mem_elim _ (m.albums.getD []) db.albums 0 a ha
          with hin | ⟨b, hb, hab⟩
        · exact Or.inl hin
        · exact Or.inr ⟨b, halb ▸ hb, hab⟩
      · intro r hr
        exact Or.inl hr
    | some eps =>
      cases hp : m.photos with
      | none =>
        simp only [hga, hp] at h
        injection h with h1 h23
        injection h23 with h2 h3
        rw [← h2]
        constructor
        · intro a ha
          rcases importAlbumsLoop_mem_elim _ (m.albums.getD []) db.albums 0 a ha
            with hin | ⟨b, hb, hab⟩
          · exact Or.inl hin
          · exact Or.inr ⟨b, halb ▸ hb, hab⟩
        · intro r hr
          exact Or.inl hr
      | some ps =>
        have hph : manifestPhotos ar = ps := by
          simp [manifestPhotos, hmeta, hp]
        simp only [hga, hp] at h
        injection h with h1 h23
        injection h23 with h2 h3
        rw [← h2]
        constructor
        · intro a ha
          rcases importAlbumsLoop_mem_elim _ (m.albums.getD []) db.albums 0 a ha
            with hin | ⟨b, hb, hab⟩
          · exact Or.inl hin
          · exact Or.inr ⟨b, halb ▸ hb, hab⟩
        · intro r hr
          rcases importPhotosLoop_mem_elim A ivs ck ar _ ps db.photos n 0 r hr
            with hin | ⟨pm, hpm, hrpm⟩
          · exact Or.inl hin
          · exact Or.inr ⟨pm, hph ▸ hpm, hrpm⟩

/-- Counterexample to claim C9 as stated: importing a photo whose plain
60-character name contains no markup stores the name at its full
60-character length — `sanitizeFileName` applies no length cap (album
names, by contrast, are capped at 50 characters), so the stored photo
name has not passed any length-capping sanitization. -/
theorem import_photoName_not_capped :
    ((importData cexAEAD cexIvs none cexLongNameArchive ⟨[], []⟩ 0).2.1.photos.map
      (fun r => r.name)) = [(List.replicate 60 'a').asString] ∧
    50 < (List.replicate 60 'a').asString.length := by
  constructor
  · rfl
  · decide

/-- Concrete instance of `import_sanitizes_names` on the one-album,
one-photo archive imported into an empty store. -/
theorem import_sanitizes_names_witness :
    (∀ a ∈ (importData cexAEAD cexIvs none cexGoodArchive ⟨[], []⟩ 0).2.1.albums,
      a ∈ (⟨[], []⟩ : Store).albums ∨
        ∃ b ∈ manifestAlbums cexGoodArchive, a = sanitizeAlbum b) ∧
    (∀ r ∈ (importData cexAEAD cexIvs none cexGoodArchive ⟨[], []⟩ 0).2.1.photos,
      r ∈ (⟨[], []⟩ : Store).photos ∨
        ∃ m ∈ manifestPhotos cexGoodArchive,
          r.name = sanitizeFileName m.name) :=
  import_sanitizes_names cexAEAD cexIvs none cexGoodArchive ⟨[], []⟩ 0 _ _ _ rfl

/-- Claim C3: import merges by identity and is idempotent.  Records that
were in the store when a successful import began are never overwritten
(they are still present, unchanged, afterwards), and running the
same import again on the resulting store succeeds, imports 0 photos and 0
albums, and leaves the store exactly as it was — so photo and album
counts equal those after the first import.  The AEAD round-trip of
crypto.subtle and the 12-byte nonce length are the crypto hypotheses. -/
theorem import_idempotent (A : AEAD) (ivs : Nat → Bytes) (ck : Option CKey)
    (ar : Archive) (db : Store) (n : Nat) (c1 : Nat × Nat) (db1 : Store)
    (n1 : Nat)
    (hA : ∀ k iv d, iv.length = IV_LENGTH → A.dec k iv (A.enc k iv d) = some d)
    (hiv : ∀ j, (ivs j).length = IV_LENGTH)
    (h1 : importData A ivs ck ar db n = (.ok c1, db1, n1)) :
    (∀ x ∈ db.albums, x ∈ db1.albums) ∧
    (∀ r ∈ db.photos, r ∈ db1.photos) ∧
    (∀ n2, importData A ivs ck ar db1 n2 = (.ok (0, 0), db1, n2)) := by
  cases hmeta : ar.metaFile with
  | absent =>
    simp only [importData, hmeta] at h1
    injection h1 with hx _
    exact Except.noConfusion hx
  | unparseable =>
    simp only [importData, hmeta] at h1
    injection h1 with hx _
    exact Except.noConfusion hx
  | parsed m =>
    simp only [importData, hmeta] at h1
    cases hga : getAllPhotos A ck db.photos with
    | none =>
      simp only [hga] at h1
      injection h1 with hx _
      exact Except.noConfusion hx
    | some eps =>
      cases hp : m.photos with
      | none =>
        simp only [hga, hp] at h1
        injection h1 with hx _
        exact Except.noConfusion hx
      | some ps =>
        simp only [hga, hp] at h1
        injection h1 with hres h23
        injection h23 with hdb hn
        set exA := (getAllAlbums db.albums).map (fun a => a.id) with hexa
        set resA := importAlbumsLoop exA (m.albums.getD []) db.albums 0
          with hresa
        set exP := eps.map (fun p => p.id) with hexp
        set resP := importPhotosLoop A ivs ck ar exP ps db.photos n 0
          with hresp
        have hexAsub : ∀ i, exA.contains i = true →
            i ∈ db.albums.map (fun a => a.id) := by
          intro i hi
          rw [List.elem_iff] at hi
          rw [hexa] at hi
          exact (getAllAlbums_id_mem db.albums i).1 hi
        have hexPsub : ∀ i, exP.contains i = true →
            i ∈ db.photos.map (fun p => p.id) := by
          intro i hi
          rw [List.elem_iff] at hi
          rw [hexp] at hi
          exact (getAllPhotos_ids A ck db.photos eps hga i).1 hi
        have halbpres : ∀ x ∈ db.albums, x ∈ resA.1 := by
          intro x hx
          refine importAlbumsLoop_preserves exA (m.albums.getD []) db.albums 0
            x hx ?_
          rw [List.elem_iff, hexa]
          exact (getAllAlbums_id_mem db.albums x.id).2
            (List.mem_map.2 ⟨x, hx, rfl⟩)
        have hphpres : ∀ r ∈ db.photos, r ∈ resP.1 := by
          intro r hr
          refine importPhotosLoop_preserves A ivs ck ar exP ps db.photos n 0
            r hr ?_
          rw [List.elem_iff, hexp]
          exact (getAllPhotos_ids A ck db.photos eps hga r.id).2
            (List.mem_map.2 ⟨r, hr, rfl⟩)
        have halbcov : ∀ a ∈ m.albums.getD [], a.id ∈ resA.1.map
            (fun x => x.id) :=
          importAlbumsLoop_covers exA (m.albums.getD []) db.albums 0 hexAsub
        have hphcov : ∀ pm ∈ ps, pm.id ∈ resP.1.map (fun x => x.id) ∨
            findFile ar.photoFiles pm.id = none ∨
            findFile ar.thumbFiles pm.id = none :=
          importPhotosLoop_covers A ivs ck ar exP ps db.photos n 0 hexPsub
        have hdecok : DecOK A ck resP.1 :=
          importPhotosLoop_decok A ivs ck ar exP hA hiv ps db.photos n 0
            (decOK_of_getAllPhotos A ck db.photos eps hga)
        obtain ⟨l2, hl2⟩ := getAllPhotos_of_decOK A ck resP.1 hdecok
        refine ⟨?_, ?_, ?_⟩
        · intro x hx
          rw [← hdb]
          exact halbpres x hx
        · intro r hr
          rw [← hdb]
          exact hphpres r hr
        · intro n2
          rw [← hdb]
          simp only [importData, hmeta]
          have hskipA : importAlbumsLoop
              ((getAllAlbums resA.1).map (fun a => a.id)) (m.albums.getD [])
              resA.1 0 = (resA.1, 0) := by
            refine importAlbumsLoop_skip _ _ _ _ ?_
            intro a ha
            rw [List.elem_iff]
            exact (getAllAlbums_id_mem resA.1 a.id).2 (halbcov a ha)
          rw [hskipA]
          simp only [hl2, hp]
          have hskipP : importPhotosLoop A ivs ck ar
              (l2.map (fun p => p.id)) ps resP.1 n2 0 = (resP.1, n2, 0) := by
            refine importPhotosLoop_skip A ivs ck ar _ ps resP.1 n2 0 ?_
            intro pm hpm
            rcases hphcov pm hpm with hin | hmiss
            · left
              rw [List.elem_iff]
              exact (getAllPhotos_ids A ck resP.1 l2 hl2 pm.id).2 hin
            · right
              exact hmiss
          rw [hskipP]

/-- Concrete instance of `import_idempotent`: the one-album, one-photo
archive imported into the empty store, then imported again. -/
theorem import_idempotent_witness :
    (∀ x ∈ (⟨[], []⟩ : Store).albums,
      x ∈ (importData cexAEAD cexIvs none cexGoodArchive
        ⟨[], []⟩ 0).2.1.albums) ∧
    (∀ r ∈ (⟨[], []⟩ : Store).photos,
      r ∈ (importData cexAEAD cexIvs none cexGoodArchive
        ⟨[], []⟩ 0).2.1.photos) ∧
    (∀ n2, importData cexAEAD cexIvs none cexGoodArchive
        (importData cexAEAD cexIvs none cexGoodArchive ⟨[], []⟩ 0).2.1 n2 =
      (.ok (0, 0),
        (importData cexAEAD cexIvs none cexGoodArchive ⟨[], []⟩ 0).2.1, n2)) :=
  import_idempotent cexAEAD cexIvs none cexGoodArchive ⟨[], []⟩ 0 _ _ _
    (fun _ _ _ _ => rfl) (fun _ => rfl) rfl

theorem scheduleAutoBackup_step (now : Int) (s : AutoBackupState)
    (hwf : WFSched s) :
    scheduleAutoBackup now s =
      { timers := [(s.nextId,
          now + max 5000 (MIN_INTERVAL_MS - (now - s.lastBackupTime)))],
        nextId := s.nextId + 1,
        pendingTimer := some s.nextId,
        lastBackupTime := s.lastBackupTime } := by
  unfold scheduleAutoBackup cancelScheduledBackup
  unfold WFSched at hwf
  cases hpt : s.pendingTimer with
  | none =>
    rw [hpt] at hwf
    simp only [hwf]
    rfl
  | some t =>
    rw [hpt] at hwf
    obtain ⟨f, hf⟩ := hwf
    simp only [hf]
    simp

theorem runSchedules_spec (tN : Int) : ∀ (ts : List Int)
    (s : AutoBackupState), WFSched s →
    ∃ i, runSchedules (ts ++ [tN]) s =
      { timers := [(i,
          tN + max 5000 (MIN_INTERVAL_MS - (tN - s.lastBackupTime)))],
        nextId := i + 1,
        pendingTimer := some i,
        lastBackupTime := s.lastBackupTime } := by
  intro ts
  induction ts with
  | nil =>
    intro s hwf
    refine ⟨s.nextId, ?_⟩
    show scheduleAutoBackup tN s = _
    exact scheduleAutoBackup_step tN s hwf
  | cons t ts' ih =>
    intro s hwf
    have hstep := scheduleAutoBackup_step t s hwf
    have hwf1 : WFSched (scheduleAutoBackup t s) := by
      rw [hstep]
      exact ⟨_, rfl⟩
    have hlast : (scheduleAutoBackup t s).lastBackupTime = s.lastBackupTime := by
      rw [hstep]
    have hrun : runSchedules ((t :: ts') ++ [tN]) s =
        runSchedules (ts' ++ [tN]) (scheduleAutoBackup t s) := rfl
    rw [hrun]
    obtain ⟨i, hi⟩ := ih (scheduleAutoBackup t s) hwf1
    rw [hlast] at hi
    exact ⟨i, hi⟩

/-- Claim C8: each `schedule()` call first cancels any pending timer and
arms exactly one new timer with delay
`max(5000, MIN_INTERVAL_MS - elapsedSinceLastBackup)`; the invariant
"at most one armed timer, the pending one" is preserved, so at most one
pending timer exists at any time; and a burst of any number of calls
(here `ts ++ [tN]`, no firing in between) leaves exactly one armed timer,
timed from the last call `tN`, whose firing executes exactly one backup
and leaves no timer armed. -/
theorem schedule_coalesces (s0 : AutoBackupState) (ts : List Int)
    (tN now f : Int) (hwf : WFSched s0) :
    (scheduleAutoBackup now s0 =
      { timers := [(s0.nextId,
          now + max 5000 (MIN_INTERVAL_MS - (now - s0.lastBackupTime)))],
        nextId := s0.nextId + 1,
        pendingTimer := some s0.nextId,
        lastBackupTime := s0.lastBackupTime }) ∧
    WFSched (scheduleAutoBackup now s0) ∧
    (∃ i, runSchedules (ts ++ [tN]) s0 =
        { timers := [(i,
            tN + max 5000 (MIN_INTERVAL_MS - (tN - s0.lastBackupTime)))],
          nextId := i + 1,
          pendingTimer := some i,
          lastBackupTime := s0.lastBackupTime } ∧
      fireScheduled true f (runSchedules (ts ++ [tN]) s0) =
        ({ timers := [], nextId := i + 1, pendingTimer := none,
           lastBackupTime := f }, true)) := by
  refine ⟨scheduleAutoBackup_step now s0 hwf, ?_, ?_⟩
  · rw [scheduleAutoBackup_step now s0 hwf]
    exact ⟨_, rfl⟩
  · obtain ⟨i, hi⟩ := runSchedules_spec tN ts s0 hwf
    refine ⟨i, hi, ?_⟩
    rw [hi]
    unfold fireScheduled
    simp

/-- Concrete instance of `schedule_coalesces`: five `schedule()` calls in
a burst from the initial state, then the timer fires with auto-backup
still enabled. -/
theorem schedule_coalesces_witness :
    (scheduleAutoBackup 1000 initAutoBackupState =
      { timers := [(initAutoBackupState.nextId,
          1000 + max 5000 (MIN_INTERVAL_MS -
            (1000 - initAutoBackupState.lastBackupTime)))],
        nextId := initAutoBackupState.nextId + 1,
        pendingTimer := some initAutoBackupState.nextId,
        lastBackupTime := initAutoBackupState.lastBackupTime }) ∧
    WFSched (scheduleAutoBackup 1000 initAutoBackupState) ∧
    (∃ i, runSchedules ([1000, 2000, 3000, 4000] ++ [5000])
          initAutoBackupState =
        { timers := [(i,
            5000 + max 5000 (MIN_INTERVAL_MS -
              (5000 - initAutoBackupState.lastBackupTime)))],
          nextId := i + 1,
          pendingTimer := some i,
          lastBackupTime := initAutoBackupState.lastBackupTime } ∧
      fireScheduled true 40000
          (runSchedules ([1000, 2000, 3000, 4000] ++ [5000])
            initAutoBackupState) =
        ({ timers := [], nextId := i + 1, pendingTimer := none,
           lastBackupTime := 40000 }, true)) :=
  schedule_coalesces initAutoBackupState [1000, 2000, 3000, 4000]
    5000 1000 40000 rfl

end Momento
